import Mathlib

/-!
Verification of the structural delta engine ("Omnom") of the Iridium
repository (lib/utils/Omnom.js).  The engine computes a MongoDB-style
change set (operators $set/$unset/$inc/$push/$pull/$pullAll keyed by
dot-delimited paths) transforming one document snapshot into another.

The embedding models JavaScript values as the inductive type `Node`
(JS `undefined` is the constructor `undef`; MongoDB ObjectIDs are the
constructor `oid`, compared by their `equals` method, i.e. by identifier).
Numbers are modelled as rationals (the engine's inputs are finite JSON
numbers).  A JS number that is NaN can still *arise inside the engine*,
in `almostEqual`'s division: similarity scores are therefore modelled as
`Option ℚ` with `none` standing for NaN (NaN compares false under `<`,
`===` and is falsy, which the score helpers reproduce).

JS objects are modelled as association lists in insertion order (the
order `_.each`/`Object.keys` iterate).  JS objects never carry duplicate
keys; well-formedness predicates record that where proofs need it.

JS `===`/`==` between two composite values is reference identity, which
a value-level embedding cannot observe; `looseEq` stands in with
structural equality.  The two notions agree on scalars and whenever a
value is compared with itself (the self-diff executions); they diverge
on independent, structurally equal composites (the engine's inputs are
independent deep copies, so there `==` is `false` while `looseEq` can be
`true`).  The only comparison the engine performs through `==` on
possibly-composite operands is `almostEqual`'s fallback, reached only
from `onArray`; theorems about executions on independent inputs
therefore restrict their domain (`arrFree`) so that no such comparison
is ever reached.  Exotic `==` coercions (number-to-string, ToPrimitive
on arrays) are modelled as `false`; no claim exercises them.
-/

namespace Omnom

/-- The recursive input type of the engine: a JS value as stored in a
document. `undef` is JS `undefined` (it arises from absent-property
reads); `oid` is a MongoDB ObjectID compared atomically. -/
inductive Node where
  | undef : Node
  | null : Node
  | num : ℚ → Node
  | str : String → Node
  | bool : Bool → Node
  | oid : Nat → Node
  | arr : List Node → Node
  | obj : List (String × Node) → Node

mutual

/-- Structural equality test on modelled values (used to model lodash's
`_.isEqual` deep comparison). -/
def Node.beq : Node → Node → Bool
  | .undef, .undef => true
  | .null, .null => true
  | .num x, .num y => decide (x = y)
  | .str x, .str y => decide (x = y)
  | .bool x, .bool y => x == y
  | .oid x, .oid y => decide (x = y)
  | .arr xs, .arr ys => Node.beqList xs ys
  | .obj fs, .obj gs => Node.beqFields fs gs
  | _, _ => false

def Node.beqList : List Node → List Node → Bool
  | [], [] => true
  | x :: xs, y :: ys => Node.beq x y && Node.beqList xs ys
  | _, _ => false

def Node.beqFields : List (String × Node) → List (String × Node) → Bool
  | [], [] => true
  | (k, v) :: fs, (k', w) :: gs => decide (k = k') && Node.beq v w && Node.beqFields fs gs
  | _, _ => false

end

theorem Node.beq_iff : ∀ (n : Nat) (a b : Node), sizeOf a ≤ n →
    (Node.beq a b = true ↔ a = b) := by
  intro n
  induction n using Nat.strong_induction_on with
  | _ n ih =>
    intro a b ha
    have listCase : ∀ (xs ys : List Node), sizeOf xs < n →
        (Node.beqList xs ys = true ↔ xs = ys) := by
      intro xs
      induction xs with
      | nil => intro ys _; cases ys <;> simp [Node.beqList]
      | cons x xs ihx =>
          intro ys hxs
          cases ys with
          | nil => simp [Node.beqList]
          | cons y ys =>
              have hx : sizeOf x ≤ sizeOf x := le_refl _
              have h1 : sizeOf x < n := by simp at hxs; omega
              have h2 : sizeOf xs < n := by simp at hxs; omega
              simp only [Node.beqList, Bool.and_eq_true, List.cons.injEq,
                ih (sizeOf x) h1 x y (le_refl _), ihx ys h2]
    have fieldsCase : ∀ (fs gs : List (String × Node)), sizeOf fs < n →
        (Node.beqFields fs gs = true ↔ fs = gs) := by
      intro fs
      induction fs with
      | nil => intro gs _; cases gs <;> simp [Node.beqFields]
      | cons kv fs ihf =>
          intro gs hfs
          obtain ⟨k, v⟩ := kv
          cases gs with
          | nil => simp [Node.beqFields]
          | cons kw gs =>
              obtain ⟨k', w⟩ := kw
              have h1 : sizeOf v < n := by simp at hfs; omega
              have h2 : sizeOf fs < n := by simp at hfs; omega
              simp only [Node.beqFields, Bool.and_eq_true, List.cons.injEq,
                Prod.mk.injEq, decide_eq_true_eq,
                ih (sizeOf v) h1 v w (le_refl _), ihf gs h2, and_assoc]
    cases a <;> cases b <;> simp [Node.beq]
    case arr.arr xs ys =>
        have : sizeOf xs < n := by simp at ha; omega
        exact listCase xs ys this
    case obj.obj fs gs =>
        have : sizeOf fs < n := by simp at ha; omega
        exact fieldsCase fs gs this

instance : DecidableEq Node := fun a b =>
  decidable_of_iff _ (Node.beq_iff (sizeOf a) a b (le_refl _))

/-- JS truthiness of a modelled value (`undefined`, `null`, `0`, `""`,
`false` are falsy; every object, array and ObjectID is truthy). -/
def truthy : Node → Bool
  | .undef => false
  | .null => false
  | .num q => decide (q ≠ 0)
  | .str s => decide (s ≠ "")
  | .bool b => b
  | .oid _ => true
  | .arr _ => true
  | .obj _ => true

/-- JS abstract (loose) equality `==` restricted to the modelled value
domain.  `null == undefined` holds; same-type scalars compare by value;
booleans coerce to numbers; the remaining cross-type `ToPrimitive`
coercions are modelled as unequal (see the header comment).  Between two
composite values JS `==` is reference identity; it is modelled
structurally, which is exact when the two operands are one value read
twice and an over-approximation on independent, structurally equal
composites — theorems whose executions could compare independent
composites through `==` exclude that case by hypothesis (`arrFree`). -/
def looseEq (a b : Node) : Bool :=
  match a, b with
  | .undef, .undef => true
  | .undef, .null => true
  | .null, .undef => true
  | .null, .null => true
  | .num x, .num y => decide (x = y)
  | .str x, .str y => decide (x = y)
  | .bool x, .bool y => x == y
  | .bool x, .num y => decide ((if x then (1 : ℚ) else 0) = y)
  | .num x, .bool y => decide (x = (if y then (1 : ℚ) else 0))
  | .oid x, .oid y => decide (x = y)
  | .arr x, .arr y => decide (Node.arr x = Node.arr y)
  | .obj x, .obj y => decide (Node.obj x = Node.obj y)
  | _, _ => false

/-- JS property read `o[key]` on an object modelled as an association
list: the first binding wins, an absent key reads as `undefined`. -/
def lookupN : List (String × Node) → String → Node
  | [], _ => .undef
  | (k', v) :: rest, k => if k' = k then v else lookupN rest k

/-- `Object.keys` of a modelled object. -/
def keysOf (fs : List (String × Node)) : List String := fs.map Prod.fst

/-- JS indexed read `xs[i]` (out-of-range reads as `undefined`). -/
def nth (xs : List Node) (i : Nat) : Node := xs.getD i .undef

theorem sizeOf_lookupN_le (fs : List (String × Node)) (k : String) :
    sizeOf (lookupN fs k) ≤ sizeOf fs := by
  induction fs with
  | nil => simp [lookupN]
  | cons kv rest ih =>
      obtain ⟨k', v⟩ := kv
      simp only [lookupN]
      split
      · simp; omega
      · simp; omega

theorem sizeOf_nth_le (xs : List Node) (i : Nat) :
    sizeOf (nth xs i) ≤ sizeOf xs := by
  induction xs generalizing i with
  | nil => simp [nth, List.getD]
  | cons x rest ih =>
      cases i with
      | zero => simp [nth, List.getD]; omega
      | succ j =>
          have := ih j
          simp [nth, List.getD] at *
          omega

theorem sizeOf_nth_lt (xs : List Node) (i : Nat) (h : i < xs.length) :
    sizeOf (nth xs i) < sizeOf xs := by
  induction xs generalizing i with
  | nil => simp at h
  | cons x rest ih =>
      cases i with
      | zero => simp [nth, List.getD]; omega
      | succ j =>
          have hj : j < rest.length := by simpa using h
          have := ih j hj
          simp [nth, List.getD] at *
          omega

theorem sizeOf_le_of_lookup {fs : List (String × Node)} {k : String}
    {v : Node} (h : lookupN fs k = v) : sizeOf v ≤ sizeOf fs :=
  h ▸ sizeOf_lookupN_le fs k

theorem sizeOf_lt_of_lookup_arr {fs : List (String × Node)} {k : String}
    {xs : List Node} (h : lookupN fs k = .arr xs) : sizeOf xs < sizeOf fs := by
  have h2 := sizeOf_lookupN_le fs k
  rw [h] at h2
  simp at h2
  omega

/-- `Array.isArray`. -/
def Node.isArr : Node → Bool
  | .arr _ => true
  | _ => false

/-- The element list of an array value (`[]` on non-arrays; only read
under an `isArr` guard). -/
def Node.arrList : Node → List Node
  | .arr xs => xs
  | _ => []

theorem sizeOf_arrList_le (v : Node) : sizeOf v.arrList ≤ sizeOf v := by
  cases v <;> simp [Node.arrList] <;> omega

/-- A similarity score as computed by `almostEqual`: `none` models the
JS NaN that the unguarded divisions produce. -/
abbrev Score := Option ℚ

/-- JS `score < 1` (false for NaN). -/
def scoreLtOne : Score → Bool
  | none => false
  | some q => decide (q < 1)

/-- JS `score === 0` (false for NaN). -/
def scoreEqZero : Score → Bool
  | none => false
  | some q => decide (q = 0)

/-- JS truthiness of a score (NaN and 0 are falsy). -/
def scoreTruthy : Score → Bool
  | none => false
  | some q => decide (q ≠ 0)

mutual

/-- `Omnom.prototype.almostEqual` (Omnom.js lines 166–182).  If either
value is not a plain object, loose equality decides 1 or 0.  Otherwise
`1 - keysDifference/totalKeys - requiredChanges/commonKeys.length`; when
the two objects share no key both divisions are `0/0` (and for disjoint
non-empty key sets the last is), so the JS result is NaN — modelled as
`none`.  With common keys present, `totalKeys ≥ 1` and the result is a
real rational. -/
def almostEqual : Node → Node → Score
  | .obj fs, .obj gs =>
      let o1k := keysOf fs
      let o2k := keysOf gs
      let commonKeys := o1k.filter (fun k => o2k.contains k)
      if commonKeys.isEmpty then none
      else
        let totalKeys : ℚ := (o1k.length : ℚ) + (o2k.length : ℚ) - (commonKeys.length : ℚ)
        let keysDifference : ℚ := totalKeys - (commonKeys.length : ℚ)
        let requiredChanges := countChanged fs gs
        some (1 - keysDifference / totalKeys - (requiredChanges : ℚ) / (commonKeys.length : ℚ))
  | a, b => if looseEq a b then some 1 else some 0
termination_by a b => sizeOf a + sizeOf b
decreasing_by
  simp_wf; omega

/-- The `requiredChanges` loop of `almostEqual`: the number of common
keys whose recursive score is `< 1`.  The source iterates the computed
`commonKeys` list and reads `o1[k]`/`o2[k]`; since JS objects never
carry duplicate keys this visits exactly the fields of `o1` whose key
occurs in `o2`, with `o1[k]` equal to the field's own value — which is
how the recursion is phrased here (structurally on the field list). -/
def countChanged : List (String × Node) → List (String × Node) → Nat
  | [], _ => 0
  | (k, v) :: rest, gs =>
      (if (keysOf gs).contains k ∧ scoreLtOne (almostEqual v (lookupN gs k)) then 1 else 0)
        + countChanged rest gs
termination_by fs gs => sizeOf fs + sizeOf gs
decreasing_by
  all_goals simp_wf
  all_goals try (have h1 := sizeOf_lookupN_le gs k)
  all_goals omega

end

/-! ### The change-set builder (`this._changes` and the methods
`set`/`unset`/`inc`/`push`/`pull`/`pullAll`, Omnom.js lines 107–153).

The differ only ever *writes* through these six methods and never reads
the accumulator, so it is embedded as a pure emitter of an operation
list (`Op`), which `buildChanges` folds into the accumulator exactly in
emission order — the same sequence of mutations the source performs. -/

/-- One call to a builder method, in emission order. -/
inductive Op where
  | set : String → Node → Op
  | unset : String → Op
  | inc : String → ℚ → Op
  | push : String → Node → Op
  | pull : String → Node → Op
  | pullAll : String → List Node → Op
deriving DecidableEq

/-- A value stored under `$push[path]`: either a single pushed value or
a `{$each: [...]}` batch wrapper. -/
inductive PushVal where
  | single : Node → PushVal
  | each : List Node → PushVal
deriving DecidableEq

/-- JS truthiness of a stored `$push[path]` entry: a wrapper object is
always truthy, a single value by its own truthiness.  (A pushed *data*
object carrying a `"$each"` key would fool the source's
`$push[path].$each` sniff; no modelled input stores such a key.) -/
def PushVal.truthy : PushVal → Bool
  | .single v => Omnom.truthy v
  | .each _ => true

/-- The accumulator `this._changes`.  `none` models the operator key
being absent from the JS object (`delete`/never assigned); `some m`
models the key being present with inner mapping `m` — possibly empty,
which the source can actually produce (see the pull/pullAll proofs). -/
structure Changes where
  set : Option (List (String × Node)) := none
  unset : Option (List (String × Nat)) := none
  inc : Option (List (String × ℚ)) := none
  push : Option (List (String × PushVal)) := none
  pull : Option (List (String × Node)) := none
  pullAll : Option (List (String × List Node)) := none
deriving DecidableEq

/-- JS property assignment `m[k] = v` on an object modelled as an
association list: overwrite in place if present, else append. -/
def assocSet {α : Type} (m : List (String × α)) (k : String) (v : α) :
    List (String × α) :=
  if m.any (fun p => p.1 = k) then m.map (fun p => if p.1 = k then (k, v) else p)
  else m ++ [(k, v)]

/-- JS property read returning `undefined` for absent keys, as an
`Option`. -/
def assocGet {α : Type} : List (String × α) → String → Option α
  | [], _ => none
  | (k', v) :: rest, k => if k' = k then some v else assocGet rest k

/-- JS `delete m[k]`. -/
def assocDel {α : Type} (m : List (String × α)) (k : String) :
    List (String × α) :=
  m.filter (fun p => p.1 ≠ k)

/-- `Omnom.prototype.set` (lines 107–111). -/
def Changes.setOp (c : Changes) (p : String) (v : Node) : Changes :=
  { c with set := some (assocSet (c.set.getD []) p v) }

/-- `Omnom.prototype.unset` (lines 112–116): stores the literal `1`. -/
def Changes.unsetOp (c : Changes) (p : String) : Changes :=
  { c with unset := some (assocSet (c.unset.getD []) p 1) }

/-- `Omnom.prototype.inc` (lines 117–121). -/
def Changes.incOp (c : Changes) (p : String) (v : ℚ) : Changes :=
  { c with inc := some (assocSet (c.inc.getD []) p v) }

/-- `Omnom.prototype.push` (lines 122–133).  `if (this.changes.$push[path])`
tests JS truthiness of the *stored* entry, so a falsy single value
(`0`, `""`, `false`, `null`) is overwritten rather than batched. -/
def Changes.pushOp (c : Changes) (p : String) (v : Node) : Changes :=
  match assocGet (c.push.getD []) p with
  | some pv =>
      if pv.truthy then
        match pv with
        | .each vs =>
            { c with push := some (assocSet (c.push.getD []) p (.each (vs ++ [v]))) }
        | .single w =>
            { c with push := some (assocSet (c.push.getD []) p (.each [w, v])) }
      else { c with push := some (assocSet (c.push.getD []) p (.single v)) }
  | none => { c with push := some (assocSet (c.push.getD []) p (.single v)) }

/-- `Omnom.prototype.pullAll` (lines 149–153): overwrites the path's
entry. -/
def Changes.pullAllOp (c : Changes) (p : String) (vs : List Node) : Changes :=
  { c with pullAll := some (assocSet (c.pullAll.getD []) p vs) }

/-- Lines 140–147 of `Omnom.prototype.pull`: the path is not yet in
`$pullAll`.  `if (this.changes.$pull[path])` again tests truthiness of
the stored value, so a falsy stored pull value is overwritten, not
coalesced. -/
def Changes.pullMerge (c : Changes) (p : String) (v : Node) : Changes :=
  match assocGet (c.pull.getD []) p with
  | some old =>
      if truthy old then
        if (assocDel (c.pull.getD []) p).isEmpty then
          { c.pullAllOp p [old, v] with pull := none }
        else
          { c.pullAllOp p [old, v] with
              pull := some (assocDel (c.pull.getD []) p) }
      else { c with pull := some (assocSet (c.pull.getD []) p v) }
  | none => { c with pull := some (assocSet (c.pull.getD []) p v) }

/-- `Omnom.prototype.pull` (lines 134–148).  Note the source *first*
materialises `this.changes.$pull = {}` (lines 135–136) and only then
returns early when the path already lives in `$pullAll` — which can
leave `$pull` present but empty. -/
def Changes.pullOp (c : Changes) (p : String) (v : Node) : Changes :=
  match c.pullAll with
  | some pa =>
      match assocGet pa p with
      | some vs =>
          { c with pull := some (c.pull.getD []),
                   pullAll := some (assocSet pa p (vs ++ [v])) }
      | none => Changes.pullMerge { c with pull := some (c.pull.getD []) } p v
  | none => Changes.pullMerge { c with pull := some (c.pull.getD []) } p v

/-- Replays one emitted builder call on the accumulator. -/
def applyOp (c : Changes) : Op → Changes
  | .set p v => c.setOp p v
  | .unset p => c.unsetOp p
  | .inc p v => c.incOp p v
  | .push p v => c.pushOp p v
  | .pull p v => c.pullOp p v
  | .pullAll p vs => c.pullAllOp p vs

/-- Replays an emitted operation sequence on a fresh accumulator (the
state of `this._changes` after the differ ran). -/
def buildChanges (ops : List Op) : Changes := ops.foldl applyOp {}

/-! ### The differ (`diff`/`onObject`/`onArray`, Omnom.js lines 17–106) -/

/-- `Omnom.prototype.resolve` (lines 154–165): joins the truthy
arguments with `"."`.  It is only ever called as
`resolve(changePath, key)`; the undefined root path is modelled as `""`
(both are falsy, so both are filtered out identically). -/
def resolve (p k : String) : String :=
  String.intercalate "." (([p, k]).filter (fun s => s ≠ ""))

/-- The configuration recognised by the engine. -/
structure Options where
  atomicNumbers : Bool := false
deriving DecidableEq

/-- The shrink walk of `onArray` (lines 56–64): index `i` walks
`original`, `j` walks `modified`; a truthy similarity advances both,
otherwise `original[i]` is collected into `pulls`; trailing original
elements are collected too.  Returns `(pulls, leftover)` where
`leftover` is the part of `modified` that `j` did not consume —
`j === modified.length` in the source is `leftover = []` here. -/
def collectPulls : List Node → List Node → List Node × List Node
  | [], ms => ([], ms)
  | o :: os, [] => (o :: os, [])
  | o :: os, m :: ms =>
      if scoreTruthy (almostEqual o m) then collectPulls os (ms)
      else
        let r := collectPulls os (m :: ms)
        (o :: r.1, r.2)

/-- The grow check of `onArray` (lines 76–81): every shared index must
score a similarity that is not `< 1` (NaN passes, since NaN < 1 is
false in JS). -/
def canPush (xs ys : List Node) : Bool :=
  (xs.zip ys).all (fun q => !(scoreLtOne (almostEqual q.1 q.2)))

/-- The `sets` bucket of the positional strategy (lines 93–96): indices
of `modified` whose similarity is exactly `0`. -/
def setsIdx (xs ys : List Node) : List Nat :=
  (List.range ys.length).filter
    (fun i => scoreEqZero (almostEqual (nth xs i) (nth ys i)))

/-- The `partials` bucket (lines 97–98): indices scoring `< 1` but not
exactly `0` (NaN lands in neither bucket). -/
def partialsIdx (xs ys : List Node) : List Nat :=
  (List.range ys.length).filter
    (fun i => !(scoreEqZero (almostEqual (nth xs i) (nth ys i)))
              && scoreLtOne (almostEqual (nth xs i) (nth ys i)))

/-- The second `_.each` of `onObject` (lines 45–49): unset every key of
`original` whose value in `modified` reads as `undefined` or `null`. -/
def sweepUnset (fs gs : List (String × Node)) (p : String) : List Op :=
  fs.filterMap (fun kv =>
    if lookupN gs kv.1 = .undef ∨ lookupN gs kv.1 = .null
    then some (Op.unset (resolve p kv.1)) else none)

mutual

/-- `Omnom.prototype.onObject` (lines 24–50), as the sequence of
builder calls it performs.  The branch cascade in source order:
null/undefined original; two changed numbers; two arrays; two
ObjectIDs; `_.isEqual` fallback when either side is not a plain object
(two equal numbers fall through the number test into this fallback and
produce nothing); and finally the recursive plain-object walk followed
by the removed-key sweep. -/
def onObject (atomic : Bool) (original modified : Node) (changePath : String) :
    List Op :=
  if original = .undef ∨ original = .null then
    if original ≠ modified then [Op.set changePath modified] else []
  else
    match original, modified with
    | .num a, .num b =>
        if a = b then []
        else if atomic then [Op.inc changePath (b - a)]
        else [Op.set changePath (.num b)]
    | .arr xs, .arr ys => onArray atomic xs ys changePath
    | .oid x, .oid y => if x = y then [] else [Op.set changePath (.oid y)]
    | .obj fs, .obj gs =>
        onFields atomic fs gs changePath ++ sweepUnset fs gs changePath
    | a, b => if a = b then [] else [Op.set changePath b]
termination_by (sizeOf original + sizeOf modified, 1)
decreasing_by
  all_goals simp_wf
  all_goals apply Prod.Lex.left
  all_goals omega

/-- The first `_.each` of `onObject` (lines 38–44): walk the fields of
`modified` in insertion order; a field that is an array on both sides
goes to `onArray`, everything else recurses through `onObject`. -/
def onFields (atomic : Bool) (origFs : List (String × Node)) :
    List (String × Node) → String → List Op
  | [], _ => []
  | (key, value) :: rest, changePath =>
      (if value.isArr && (lookupN origFs key).isArr then
        onArray atomic (lookupN origFs key).arrList value.arrList
          (resolve changePath key)
      else
        onObject atomic (lookupN origFs key) value (resolve changePath key))
      ++ onFields atomic origFs rest changePath
termination_by fs _ => (sizeOf origFs + sizeOf fs, 0)
decreasing_by
  all_goals simp_wf
  all_goals try apply Prod.Lex.left
  all_goals
    (try (have h1 := sizeOf_arrList_le (lookupN origFs k')
          have h2 := sizeOf_lookupN_le origFs k'
          have h3 := sizeOf_arrList_le v))
  all_goals omega

/-- `Omnom.prototype.onArray` (lines 51–106): removal-only walk when
`original` is longer; append-only pushes when `modified` is longer and
the shared prefix never scores below `1`; otherwise the positional
strategy — full `set` when the `sets` bucket exceeds half of
`modified`'s length, else positional sets followed by nested diffs of
the `partials` bucket. -/
def onArray (atomic : Bool) (xs ys : List Node) (changePath : String) :
    List Op :=
  if xs.length > ys.length then
    if (collectPulls xs ys).2.isEmpty then
      if (collectPulls xs ys).1.length = 1 then
        [Op.pull changePath ((collectPulls xs ys).1.headD .undef)]
      else (collectPulls xs ys).1.map (Op.pull changePath)
    else [Op.set changePath (.arr ys)]
  else
    if xs.length < ys.length ∧ canPush xs ys then
      (ys.drop xs.length).map (Op.push changePath)
    else
      -- `sets.length > modified.length / 2` under JS real division
      if 2 * (setsIdx xs ys).length > ys.length then
        [Op.set changePath (.arr ys)]
      else
        (setsIdx xs ys).map (fun i => Op.set (resolve changePath (Nat.repr i)) (nth ys i))
          ++ onPartials atomic xs ys changePath (partialsIdx xs ys)
termination_by (sizeOf xs + sizeOf ys + 1, 0)
decreasing_by
  · simp_wf
    apply Prod.Lex.left
    omega

/-- The `partials` loop of the positional strategy (lines 104–105):
recurse into `onObject` at `path.<index>` for every partially-similar
index. -/
def onPartials (atomic : Bool) (xs ys : List Node) (changePath : String) :
    List Nat → List Op
  | [] => []
  | i :: rest =>
      onObject atomic (nth xs i) (nth ys i) (resolve changePath (Nat.repr i))
        ++ onPartials atomic xs ys changePath rest
termination_by is => (sizeOf xs + sizeOf ys, is.length + 1)
decreasing_by
  all_goals simp_wf
  all_goals
    (first
      | exact Prod.Lex.right _ (by omega)
      | (have h1 := sizeOf_nth_le xs i
         have h2 := sizeOf_nth_le ys i
         rcases Nat.lt_or_ge (sizeOf (nth xs i) + sizeOf (nth ys i))
             (sizeOf xs + sizeOf ys) with h | h
         · exact Prod.Lex.left _ _ h
         · have heq : sizeOf (nth xs i) + sizeOf (nth ys i)
               = sizeOf xs + sizeOf ys := by omega
           rw [heq]
           exact Prod.Lex.right _ (by omega)))

end

/-- `Omnom.prototype.diff` / static `Omnom.diff` (lines 17–23): run
`onObject` at the root (an undefined change path, modelled `""`) and
collect the builder calls. -/
def diffOps (opts : Options) (original modified : Node) : List Op :=
  onObject opts.atomicNumbers original modified ""

/-- `Omnom.diff(original, modified, options)`: the accumulated change
set. -/
def diff (original modified : Node) (opts : Options) : Changes :=
  buildChanges (diffOps opts original modified)

/-! ### Canonical application of a change set

Modelled from the spec: the "canonical update-operator semantics" the
round-trip law quantifies over (§8: set=overwrite, unset=remove,
inc=add, push=append / `$each`-append in order, pull=remove-all-
equal-to-value, pullAll=remove-all-equal-to-any-of-list).  The applier
itself is the external persistence executor (MongoDB's update engine)
and is not part of this repository, so it is defined from the spec's
words.  Paths address fields by their dot-separated segments; numeric
segments index arrays.  Irregular addressing the spec leaves to the
backend (out-of-range indices, traversing a scalar) leaves the
document unchanged. -/

/-- Splits a character list at every `'.'` (the list of segments is
never empty; an empty input gives one empty segment, like
`"".split(".")`). -/
def segsOf : List Char → List (List Char)
  | [] => [[]]
  | c :: cs =>
      if c = '.' then [] :: segsOf cs
      else
        match segsOf cs with
        | s :: ss => (c :: s) :: ss
        | [] => [[c]]

/-- The dot-separated segments of a Path. -/
def pathSegs (p : String) : List String := (segsOf p.data).map String.mk

/-- Navigates `segs` inside `d` and rewrites the addressed slot with
`f` (receiving `none` when the field is absent; returning `none`
removes the field).  Missing intermediate records are created as empty
records, as a document store does on `set`. -/
def modifyAt : Node → List String → (Option Node → Option Node) → Node
  | .obj fs, [k], f =>
      (match f (assocGet fs k) with
       | some v => .obj (assocSet fs k v)
       | none => .obj (assocDel fs k))
  | .obj fs, k :: k2 :: rest, f =>
      .obj (assocSet fs k (modifyAt ((assocGet fs k).getD (.obj [])) (k2 :: rest) f))
  | .arr xs, [k], f =>
      (match k.toNat? with
       | some i =>
           (match f (xs.get? i) with
            | some v => .arr (xs.set i v)
            | none => .arr xs)
       | none => .arr xs)
  | .arr xs, k :: k2 :: rest, f =>
      (match k.toNat? with
       | some i =>
           (match xs.get? i with
            | some x => .arr (xs.set i (modifyAt x (k2 :: rest) f))
            | none => .arr xs)
       | none => .arr xs)
  | d, _, _ => d

/-- `set`: overwrite the value at the path. -/
def applySet (d : Node) (p : String) (v : Node) : Node :=
  modifyAt d (pathSegs p) (fun _ => some v)

/-- `unset`: remove the field at the path. -/
def applyUnset (d : Node) (p : String) : Node :=
  modifyAt d (pathSegs p) (fun _ => none)

/-- `inc`: add the delta to the numeric value at the path (an absent
field starts from 0). -/
def applyInc (d : Node) (p : String) (q : ℚ) : Node :=
  modifyAt d (pathSegs p)
    (fun
      | some (.num a) => some (.num (a + q))
      | none => some (.num q)
      | some x => some x)

/-- `push`: append the given values, in order, to the sequence at the
path (a single push appends one value; an `$each` batch appends each
value in order). -/
def applyPush (d : Node) (p : String) (vs : List Node) : Node :=
  modifyAt d (pathSegs p)
    (fun
      | some (.arr xs) => some (.arr (xs ++ vs))
      | none => some (.arr vs)
      | some x => some x)

/-- `pull`/`pullAll`: remove every occurrence equal to any of `vs` from
the sequence at the path. -/
def applyPull (d : Node) (p : String) (vs : List Node) : Node :=
  modifyAt d (pathSegs p)
    (fun
      | some (.arr xs) => some (.arr (xs.filter (fun x => !(vs.any (fun v => decide (v = x))))))
      | o => o)

/-- Applies a whole Change Set to a document under the canonical
semantics, operator kind by operator kind. -/
def applyChanges (c : Changes) (doc : Node) : Node :=
  let d1 := (c.set.getD []).foldl (fun d kv => applySet d kv.1 kv.2) doc
  let d2 := (c.unset.getD []).foldl (fun d kv => applyUnset d kv.1) d1
  let d3 := (c.inc.getD []).foldl (fun d kv => applyInc d kv.1 kv.2) d2
  let d4 := (c.push.getD []).foldl
    (fun d kv => applyPush d kv.1
      (match kv.2 with | .single v => [v] | .each vs => vs)) d3
  let d5 := (c.pull.getD []).foldl (fun d kv => applyPull d kv.1 [kv.2]) d4
  (c.pullAll.getD []).foldl (fun d kv => applyPull d kv.1 kv.2) d5

/-! ### Well-formedness predicates

JS objects cannot carry duplicate keys, cannot "store" `undefined`
except explicitly, and the claims sometimes need null-free field
values; these predicates capture the relevant input classes. -/

/-- No two fields share a key (what `Object.keys` guarantees). -/
def keysNodup : List (String × Node) → Bool
  | [] => true
  | (k, _) :: rest => rest.all (fun kv => decide (kv.1 ≠ k)) && keysNodup rest

mutual

/-- A well-formed document value with no `null`-valued record fields:
no `undefined` anywhere, every record has distinct keys, and no record
field holds `null` (a standalone `null` is itself fine). -/
def clean : Node → Bool
  | .undef => false
  | .arr xs => cleanList xs
  | .obj fs => keysNodup fs && cleanFields fs
  | _ => true

def cleanList : List Node → Bool
  | [] => true
  | x :: xs => clean x && cleanList xs

def cleanFields : List (String × Node) → Bool
  | [] => true
  | (_, v) :: rest => decide (v ≠ .null) && clean v && cleanFields rest

end

mutual

/-- Every record key throughout the value is non-empty (a falsy `""`
key would be dropped by `resolve` and collapse two distinct tree
positions onto one path). -/
def goodKeys : Node → Bool
  | .arr xs => goodKeysList xs
  | .obj fs => goodKeysFields fs
  | _ => true

def goodKeysList : List Node → Bool
  | [] => true
  | x :: xs => goodKeys x && goodKeysList xs

def goodKeysFields : List (String × Node) → Bool
  | [] => true
  | (k, v) :: rest => decide (k ≠ "") && goodKeys v && goodKeysFields rest

end

mutual

/-- The value contains no Array anywhere.  On a pair of such inputs the
differ never enters `onArray`, hence never calls `almostEqual`: the only
comparison the engine performs through JS `==` on possibly-composite
operands (where, on independent inputs, `==` is reference inequality
while the structural `looseEq` may disagree) is never reached, and every
comparison that does run (strict equality against `undefined`/`null`,
number inequality, `ObjectID.equals`, lodash's structural `isEqual`) is
modelled exactly. -/
def arrFree : Node → Bool
  | .arr _ => false
  | .obj fs => arrFreeFields fs
  | _ => true

def arrFreeFields : List (String × Node) → Bool
  | [] => true
  | (_, v) :: rest => arrFree v && arrFreeFields rest

end

/-- A string with no `'.'` character: such a key names exactly one path
segment, so its path cannot collide with a nested path. -/
def dotFree (s : String) : Prop := '.' ∉ s.data

instance (s : String) : Decidable (dotFree s) := by
  unfold dotFree; infer_instance

/-- Extends a path by a list of key segments, the way the recursion
extends `changePath` one key at a time. -/
def resolveList (p : String) (segs : List String) : String :=
  segs.foldl resolve p

/-- "The only difference between the two values is one changed numeric
scalar leaf, reached by the record keys `segs`": at the leaf two
distinct numbers `a`/`b`, and at every record step the two field lists
agree except at the key continuing the path. -/
inductive NumLeafDiff : Node → Node → List String → ℚ → ℚ → Prop where
  | leaf {a b : ℚ} (h : a ≠ b) : NumLeafDiff (.num a) (.num b) [] a b
  | step {l r : List (String × Node)} {k : String} {v w : Node}
      {segs : List String} {a b : ℚ} (h : NumLeafDiff v w segs a b) :
      NumLeafDiff (.obj (l ++ (k, v) :: r)) (.obj (l ++ (k, w) :: r))
        (k :: segs) a b

/-- The operator key is present and its inner mapping contains the
path. -/
def hasSetAt (c : Changes) (p : String) : Bool :=
  (c.set.getD []).any (fun kv => decide (kv.1 = p))

/-- The unset operator key is present and its inner mapping contains
the path. -/
def hasUnsetAt (c : Changes) (p : String) : Bool :=
  (c.unset.getD []).any (fun kv => decide (kv.1 = p))

/-- "`o`, when present, is a non-empty inner mapping." -/
def innerNonempty {α : Type} (o : Option (List (String × α))) : Prop :=
  ∀ m, o = some m → m ≠ []

/-- The data-model invariant claimed for Change Sets, corrected for
what the pull/pullAll coalescing can actually produce: every operator
mapping other than `pull` is non-empty when present, and a present but
*empty* `pull` mapping can only coexist with a non-empty `pullAll`. -/
def changesInv (c : Changes) : Prop :=
  innerNonempty c.set ∧ innerNonempty c.unset ∧ innerNonempty c.inc ∧
    innerNonempty c.push ∧ innerNonempty c.pullAll ∧
    (∀ m, c.pull = some m →
      (m ≠ [] ∨ ∃ pa, c.pullAll = some pa ∧ pa ≠ []))

/-! ## Theorems -/

theorem resolve_root (k : String) : resolve "" k = k := by
  by_cases h : k = ""
  · subst h; rfl
  · simp [resolve, h]; rfl

theorem resolve_nonroot {p : String} (k : String) (hp : p ≠ "") :
    resolve p k = if k = "" then p else p ++ "." ++ k := by
  by_cases h : k = ""
  · simp [resolve, h, hp]; rfl
  · simp [resolve, h, hp]; rfl

theorem resolve_ne_root {p : String} (k : String) (hp : p ≠ "") :
    resolve p k ≠ "" := by
  rw [resolve_nonroot k hp]
  by_cases h : k = ""
  · simpa [h]
  · simp [h]
    intro hcon
    have : (p ++ "." ++ k).data = "".data := by rw [hcon]
    simp [String.data_append] at this

/-- C1 — the round-trip law fails on the code: for
`original = {a:[1,1]}`, `modified = {a:[1]}` the engine emits
`{pull: {a: 1}}`, and `pull` removes *every* occurrence equal to `1`,
so applying the Change Set to `original` yields `{a:[]}`, not
`{a:[1]}`. -/
theorem pull_breaks_roundtrip :
    diff (.obj [("a", .arr [.num 1, .num 1])]) (.obj [("a", .arr [.num 1])]) {} =
      { pull := some [("a", Node.num 1)] } ∧
    applyChanges { pull := some [("a", Node.num 1)] }
        (.obj [("a", .arr [.num 1, .num 1])]) = .obj [("a", .arr [])] ∧
    Node.obj [("a", Node.arr [])] ≠ Node.obj [("a", Node.arr [Node.num 1])] := by
  refine ⟨?_, by decide, by decide⟩
  norm_num [diff, diffOps, buildChanges, onObject.eq_def, onFields.eq_def, sweepUnset, lookupN,
    resolve_root, applyOp, Changes.pullOp, Changes.pullMerge, assocSet, assocGet, Node.isArr,
    Node.arrList, onArray.eq_def, collectPulls, scoreTruthy, almostEqual.eq_def, looseEq]
  simp [applyOp, Changes.pullOp, Changes.pullMerge, assocSet, assocGet]

/-- C2 (counterexample) — `diff(x, x)` is *not* empty when `x` has a
null-valued field: for `x = {a: null}` the removed-key sweep fires on
the null value and the result is `{unset: {a: 1}}`. -/
theorem diff_self_null_field_not_empty :
    (diff (.obj [("a", .null)]) (.obj [("a", .null)]) {}) = { unset := some [("a", 1)] } ∧
    ({ unset := some [("a", 1)] } : Changes) ≠ ({} : Changes) := by
  constructor
  · norm_num [diff, diffOps, buildChanges, onObject.eq_def, onFields.eq_def, sweepUnset, lookupN,
      resolve_root, applyOp, Changes.unsetOp, assocSet, assocGet, Node.isArr]
    simp [applyOp, Changes.unsetOp, assocSet, assocGet]
  · decide

/-- C3 (counterexample) — `almostEqual` is not `[0,1]`-valued: two
records sharing one changed key out of three total keys score
`1 - 2/3 - 1/1 = -2/3 < 0`. -/
theorem almostEqual_negative_score :
    almostEqual (.obj [("a", .num 1), ("b", .num 2)]) (.obj [("a", .num 3), ("c", .num 4)])
        = some (-2/3) ∧ ¬((0 : ℚ) ≤ -2/3) := by
  constructor
  · norm_num [almostEqual.eq_def, countChanged, keysOf, lookupN, scoreLtOne, looseEq]
    simp
    norm_num
  · norm_num

/-- C4 (counterexample) — a key present in both records *can* produce
both a `set` and an `unset` at its path: when its value in `modified`
is `null`, the `_.isEqual` fallback emits `set(path, null)` and the
removed-key sweep then emits `unset(path)`. -/
theorem null_value_set_and_unset :
    (diff (.obj [("k", .num 1)]) (.obj [("k", .null)]) {})
      = { set := some [("k", Node.null)], unset := some [("k", 1)] } ∧
    hasSetAt { set := some [("k", Node.null)], unset := some [("k", 1)] } "k" = true ∧
    hasUnsetAt { set := some [("k", Node.null)], unset := some [("k", 1)] } "k" = true := by
  refine ⟨?_, by decide, by decide⟩
  norm_num [diff, diffOps, buildChanges, onObject.eq_def, onFields.eq_def, sweepUnset, lookupN,
    resolve_root, applyOp, Changes.unsetOp, Changes.setOp, assocSet, assocGet, Node.isArr]
  simp [applyOp, Changes.unsetOp, Changes.setOp, assocSet, assocGet]

/-- C5 (counterexample) — the division by `|common|` is *not* guarded:
two empty (hence key-disjoint) records do not score `1`; the divisions
are `0/0` and the result is NaN (`none`), exactly as §7 of the spec
warns. -/
theorem almostEqual_empty_objs_nan :
    almostEqual (.obj []) (.obj []) = none := by
  norm_num [almostEqual.eq_def, keysOf]

/-- C6 (counterexample) — an operator key can be left present with an
*empty* inner mapping: three pulls on the same path first coalesce into
`pullAll` and delete `$pull`, and the third pull then re-creates
`$pull = {}` before appending to `pullAll`, leaving
`{pull: {}, pullAll: {a: [1,2,3]}}`. -/
theorem pull_left_empty_after_coalesce :
    (diff (.obj [("a", .arr [.num 1, .num 2, .num 3, .num 4])]) (.obj [("a", .arr [.num 4])]) {})
      = { pull := some [], pullAll := some [("a", [Node.num 1, Node.num 2, Node.num 3])] } := by
  norm_num [diff, diffOps, buildChanges, onObject.eq_def, onFields.eq_def, sweepUnset, lookupN,
    resolve_root, applyOp, Changes.pullOp, Changes.pullMerge, Changes.pullAllOp, assocSet,
    assocGet, assocDel, Node.isArr, Node.arrList, onArray.eq_def, collectPulls, scoreTruthy,
    almostEqual.eq_def, looseEq, truthy]
  simp [applyOp, Changes.pullOp, Changes.pullMerge, Changes.pullAllOp,
    assocSet, assocGet, assocDel, truthy]

/-- C7 (counterexample) — a changed numeric scalar leaf *inside an
array* does not produce an `inc` even with `atomicNumbers = true`:
for `{a:[1]}` vs `{a:[2]}` the array reconciliation's majority-rewrite
rule emits a full `set` of the array instead. -/
theorem numeric_leaf_in_array_no_inc :
    diff (.obj [("a", .arr [.num 1])]) (.obj [("a", .arr [.num 2])]) ⟨true⟩
      = { set := some [("a", Node.arr [Node.num 2])] } := by
  norm_num [diff, diffOps, buildChanges, onObject.eq_def, onFields.eq_def, sweepUnset, lookupN,
    resolve_root, applyOp, Changes.setOp, assocSet, assocGet, Node.isArr, Node.arrList,
    onArray.eq_def, collectPulls, canPush, setsIdx, partialsIdx, List.range_succ,
    nth, scoreTruthy, scoreEqZero, scoreLtOne, almostEqual.eq_def, looseEq]
  simp [applyOp, Changes.setOp, assocSet, assocGet]

/-- C8 (counterexample) — pushes are *not* reliably batched into an
`$each` list: pushing `0` then `1` onto the same path leaves
`{push: {a: 1}}`, because the stored single value `0` is falsy and the
second push overwrites it (the `0` is lost entirely). -/
theorem falsy_push_not_batched :
    (diff (.obj [("a", .arr [])]) (.obj [("a", .arr [.num 0, .num 1])]) {}).push
      = some [("a", PushVal.single (Node.num 1))] := by
  norm_num [diff, diffOps, buildChanges, onObject.eq_def, onFields.eq_def, sweepUnset, lookupN,
    resolve_root, applyOp, Changes.pushOp, assocSet, assocGet, Node.isArr, Node.arrList,
    PushVal.truthy, truthy, onArray.eq_def, canPush, almostEqual.eq_def, looseEq]
  simp [applyOp, Changes.pushOp, assocSet, assocGet, PushVal.truthy, truthy]

/-! ### Identity of self-diffs (claim C2, amended) -/

theorem lookupN_of_mem {fs : List (String × Node)} {k : String} {v : Node}
    (hnd : keysNodup fs = true) (hm : (k, v) ∈ fs) : lookupN fs k = v := by
  induction fs with
  | nil => simp at hm
  | cons kv rest ih =>
      obtain ⟨k', v'⟩ := kv
      rw [keysNodup, Bool.and_eq_true, List.all_eq_true] at hnd
      rcases List.mem_cons.mp hm with h | h
      · injection h with h1 h2
        rw [lookupN, if_pos h1.symm]
        exact h2.symm
      · have hne : k' ≠ k := by
          have h2 := hnd.1 _ h
          rw [decide_eq_true_eq] at h2
          exact fun he => h2 (by simp [he])
        rw [lookupN, if_neg hne]
        exact ih hnd.2 h

theorem cleanFields_mem {fs : List (String × Node)} {k : String} {v : Node}
    (hc : cleanFields fs = true) (hm : (k, v) ∈ fs) :
    clean v = true ∧ v ≠ .null := by
  induction fs with
  | nil => simp at hm
  | cons kv rest ih =>
      obtain ⟨k', v'⟩ := kv
      simp [cleanFields] at hc
      rcases List.mem_cons.mp hm with h | h
      · injection h with h1 h2
        subst h2
        exact ⟨hc.1.2, hc.1.1⟩
      · exact ih hc.2 h

theorem sizeOf_mem_fields {fs : List (String × Node)} {k : String} {v : Node}
    (hm : (k, v) ∈ fs) : sizeOf v < sizeOf fs := by
  induction fs with
  | nil => simp at hm
  | cons kv rest ih =>
      rcases List.mem_cons.mp hm with h | h
      · subst h; simp; omega
      · have := ih h; simp; omega

theorem cleanList_mem {xs : List Node} {x : Node}
    (hc : cleanList xs = true) (hm : x ∈ xs) : clean x = true := by
  induction xs with
  | nil => simp at hm
  | cons y ys ih =>
      simp [cleanList] at hc
      rcases List.mem_cons.mp hm with h | h
      · subst h; exact hc.1
      · exact ih hc.2 h

theorem clean_ne_undef {v : Node} (hc : clean v = true) : v ≠ .undef := by
  intro h; subst h; simp [clean] at hc

/-- A clean value compared with itself scores `1`, or NaN when it is a
record with no keys. -/
theorem almostEqual_self_aux : ∀ (n : Nat) (v : Node), sizeOf v ≤ n →
    clean v = true → almostEqual v v = some 1 ∨ almostEqual v v = none := by
  intro n
  induction n using Nat.strong_induction_on with
  | _ n ih =>
    intro v hn hc
    match v with
    | .undef => simp [clean] at hc
    | .null => left; simp [almostEqual.eq_def, looseEq]
    | .num a => left; simp [almostEqual.eq_def, looseEq]
    | .str s => left; simp [almostEqual.eq_def, looseEq]
    | .bool b => left; simp [almostEqual.eq_def, looseEq]
    | .oid x => left; simp [almostEqual.eq_def, looseEq]
    | .arr xs => left; simp [almostEqual.eq_def, looseEq]
    | .obj fs =>
        simp [clean] at hc
        obtain ⟨hnd, hcf⟩ := hc
        have hck : (keysOf fs).filter (fun k => (keysOf fs).contains k) = keysOf fs := by
          apply List.filter_eq_self.mpr
          intro k hk
          simpa using hk
        have hcc : ∀ sub : List (String × Node), (∀ kv, kv ∈ sub → kv ∈ fs) →
            countChanged sub fs = 0 := by
          intro sub
          induction sub with
          | nil => intro _; simp [countChanged]
          | cons kv sub' ihsub =>
              intro hmem
              obtain ⟨k, v'⟩ := kv
              have hkv : (k, v') ∈ fs := hmem _ (List.mem_cons_self _ _)
              have hlk : lookupN fs k = v' := lookupN_of_mem hnd hkv
              have hcv := cleanFields_mem hcf hkv
              have hsz : sizeOf v' < n := by
                have h1 := sizeOf_mem_fields hkv
                simp at hn
                omega
              have hself := ih (sizeOf v') hsz v' (le_refl _) hcv.1
              have hlt : scoreLtOne (almostEqual v' v') = false := by
                rcases hself with h | h <;> simp [h, scoreLtOne]
              simp [countChanged, hlk, hlt]
              exact ihsub (fun kv hkv2 => hmem _ (List.mem_cons_of_mem _ hkv2))
        cases fs with
        | nil => right; simp [almostEqual.eq_def, keysOf]
        | cons kv rest =>
            left
            rw [almostEqual.eq_def]
            simp only [hck]
            have hne : ¬ (keysOf (kv :: rest)).isEmpty = true := by
              simp [keysOf]
            simp only [hne, if_false]
            have h0 : countChanged (kv :: rest) (kv :: rest) = 0 :=
              hcc _ (fun kv2 h => h)
            simp [h0]

theorem nth_mem {xs : List Node} {i : Nat} (h : i < xs.length) : nth xs i ∈ xs := by
  rw [nth, List.getD_eq_getElem?_getD, List.getElem?_eq_getElem h]
  simp

theorem scoreLtOne_self {v : Node} (hc : clean v = true) :
    scoreLtOne (almostEqual v v) = false := by
  rcases almostEqual_self_aux (sizeOf v) v (le_refl _) hc with h | h <;>
    simp [h, scoreLtOne]

theorem scoreEqZero_self {v : Node} (hc : clean v = true) :
    scoreEqZero (almostEqual v v) = false := by
  rcases almostEqual_self_aux (sizeOf v) v (le_refl _) hc with h | h <;>
    simp [h, scoreEqZero]

theorem setsIdx_self {xs : List Node} (hc : cleanList xs = true) :
    setsIdx xs xs = [] := by
  rw [setsIdx, List.filter_eq_nil]
  intro i hi
  rw [List.mem_range] at hi
  simp [scoreEqZero_self (cleanList_mem hc (nth_mem hi))]

theorem partialsIdx_self {xs : List Node} (hc : cleanList xs = true) :
    partialsIdx xs xs = [] := by
  rw [partialsIdx, List.filter_eq_nil]
  intro i hi
  rw [List.mem_range] at hi
  simp [scoreLtOne_self (cleanList_mem hc (nth_mem hi))]

theorem onArray_self {xs : List Node} (hc : cleanList xs = true)
    (atomic : Bool) (p : String) : onArray atomic xs xs p = [] := by
  rw [onArray.eq_def]
  simp [setsIdx_self hc, partialsIdx_self hc, onPartials]

theorem sweepUnset_self {fs : List (String × Node)} (hnd : keysNodup fs = true)
    (hcf : cleanFields fs = true) (p : String) : sweepUnset fs fs p = [] := by
  rw [sweepUnset, List.filterMap_eq_nil]
  intro kv hkv
  obtain ⟨k, v⟩ := kv
  have hlk : lookupN fs k = v := lookupN_of_mem hnd hkv
  have hcv := cleanFields_mem hcf hkv
  have hnu : v ≠ .undef := clean_ne_undef hcv.1
  simp [hlk, hnu, hcv.2]

theorem onObject_self_aux : ∀ (n : Nat) (v : Node), sizeOf v ≤ n →
    clean v = true → ∀ (atomic : Bool) (p : String), onObject atomic v v p = [] := by
  intro n
  induction n using Nat.strong_induction_on with
  | _ n ih =>
    intro v hn hc atomic p
    match v with
    | .undef => simp [clean] at hc
    | .null => rw [onObject.eq_def]; simp
    | .num a => rw [onObject.eq_def]; simp
    | .str s => rw [onObject.eq_def]; simp
    | .bool b => rw [onObject.eq_def]; simp
    | .oid x => rw [onObject.eq_def]; simp
    | .arr xs =>
        rw [onObject.eq_def]
        simp [clean] at hc
        simp [onArray_self hc]
    | .obj fs =>
        simp [clean] at hc
        obtain ⟨hnd, hcf⟩ := hc
        have hof : ∀ sub : List (String × Node), (∀ kv, kv ∈ sub → kv ∈ fs) →
            onFields atomic fs sub p = [] := by
          intro sub
          induction sub with
          | nil => intro _; rw [onFields]
          | cons kv sub' ihsub =>
              intro hmem
              obtain ⟨k, v'⟩ := kv
              have hkv : (k, v') ∈ fs := hmem _ (List.mem_cons_self _ _)
              have hlk : lookupN fs k = v' := lookupN_of_mem hnd hkv
              have hcv := cleanFields_mem hcf hkv
              have hsz : sizeOf v' < n := by
                have h1 := sizeOf_mem_fields hkv
                simp at hn
                omega
              rw [onFields]
              rw [ihsub (fun kv2 hkv2 => hmem _ (List.mem_cons_of_mem _ hkv2))]
              rw [List.append_nil]
              rw [hlk]
              by_cases harr : ∃ ys, v' = Node.arr ys
              · obtain ⟨ys, hys⟩ := harr
                subst hys
                have hcl : cleanList ys = true := by simpa [clean] using hcv.1
                simp [Node.isArr, Node.arrList, onArray_self hcl]
              · have hna : v'.isArr = false := by
                  cases v' <;> simp [Node.isArr] <;> exact harr ⟨_, rfl⟩
                simp [hna]
                exact ih (sizeOf v') hsz v' (le_refl _) hcv.1 atomic _
        rw [onObject.eq_def]
        simp [hof fs (fun kv h => h), sweepUnset_self hnd hcf]

/-- C2 (amended) — for every well-formed `x` with no null-valued record
fields, `diff(x, x)` is the empty Change Set (no operator key
present). -/
theorem diff_self_empty_of_clean (x : Node) (hx : clean x = true)
    (opts : Options) : diff x x opts = {} := by
  rw [diff, diffOps, onObject_self_aux (sizeOf x) x (le_refl _) hx opts.atomicNumbers]
  rfl

theorem diff_self_empty_of_clean_witness :
    clean (.obj [("name", .str "Tom"), ("age", .num 30)]) = true ∧
    diff (.obj [("name", .str "Tom"), ("age", .num 30)])
      (.obj [("name", .str "Tom"), ("age", .num 30)]) {} = {} :=
  ⟨by decide, diff_self_empty_of_clean _ (by decide) {}⟩

/-! ### Non-emptiness of operator mappings (claim C6, amended) -/

theorem assocSet_ne_nil {α : Type} (m : List (String × α)) (k : String) (v : α) :
    assocSet m k v ≠ [] := by
  rw [assocSet]
  split
  · rename_i hany
    intro hmap
    rw [List.map_eq_nil] at hmap
    subst hmap
    simp at hany
  · simp

theorem changesInv_withSet {c : Changes} (h : changesInv c)
    {m : List (String × Node)} (hm : m ≠ []) :
    changesInv { c with set := some m } :=
  ⟨fun m2 heq => by injection heq with e; exact e ▸ hm,
   h.2.1, h.2.2.1, h.2.2.2.1, h.2.2.2.2.1, h.2.2.2.2.2⟩

theorem changesInv_withUnset {c : Changes} (h : changesInv c)
    {m : List (String × Nat)} (hm : m ≠ []) :
    changesInv { c with unset := some m } :=
  ⟨h.1, fun m2 heq => by injection heq with e; exact e ▸ hm,
   h.2.2.1, h.2.2.2.1, h.2.2.2.2.1, h.2.2.2.2.2⟩

theorem changesInv_withInc {c : Changes} (h : changesInv c)
    {m : List (String × ℚ)} (hm : m ≠ []) :
    changesInv { c with inc := some m } :=
  ⟨h.1, h.2.1, fun m2 heq => by injection heq with e; exact e ▸ hm,
   h.2.2.2.1, h.2.2.2.2.1, h.2.2.2.2.2⟩

theorem changesInv_withPush {c : Changes} (h : changesInv c)
    {m : List (String × PushVal)} (hm : m ≠ []) :
    changesInv { c with push := some m } :=
  ⟨h.1, h.2.1, h.2.2.1, fun m2 heq => by injection heq with e; exact e ▸ hm,
   h.2.2.2.2.1, h.2.2.2.2.2⟩

theorem changesInv_withPullAll {c : Changes} (h : changesInv c)
    {M : List (String × List Node)} (hM : M ≠ []) :
    changesInv { c with pullAll := some M } :=
  ⟨h.1, h.2.1, h.2.2.1, h.2.2.2.1,
   fun m2 heq => by injection heq with e; exact e ▸ hM,
   fun m2 _ => Or.inr ⟨M, rfl, hM⟩⟩

theorem changesInv_withPullPullAll {c : Changes} (h : changesInv c)
    (d : List (String × Node)) {M : List (String × List Node)} (hM : M ≠ []) :
    changesInv { c with pull := some d, pullAll := some M } :=
  ⟨h.1, h.2.1, h.2.2.1, h.2.2.2.1,
   fun m2 heq => by injection heq with e; exact e ▸ hM,
   fun m2 _ => Or.inr ⟨M, rfl, hM⟩⟩

theorem changesInv_withPullNone {c : Changes} (h : changesInv c)
    {M : List (String × List Node)} (hM : M ≠ []) :
    changesInv { c with pull := none, pullAll := some M } :=
  ⟨h.1, h.2.1, h.2.2.1, h.2.2.2.1,
   fun m2 heq => by injection heq with e; exact e ▸ hM,
   fun m2 heq => by cases heq⟩

theorem changesInv_withPullNonempty {c : Changes} (h : changesInv c)
    {m : List (String × Node)} (hm : m ≠ []) :
    changesInv { c with pull := some m } :=
  ⟨h.1, h.2.1, h.2.2.1, h.2.2.2.1, h.2.2.2.2.1,
   fun m2 heq => by injection heq with e; exact Or.inl (e ▸ hm)⟩

theorem changesInv_applyOp {c : Changes} (op : Op) (h : changesInv c) :
    changesInv (applyOp c op) := by
  cases op with
  | set p v => exact changesInv_withSet h (assocSet_ne_nil _ _ _)
  | unset p => exact changesInv_withUnset h (assocSet_ne_nil _ _ _)
  | inc p v => exact changesInv_withInc h (assocSet_ne_nil _ _ _)
  | pullAll p vs => exact changesInv_withPullAll h (assocSet_ne_nil _ _ _)
  | push p v =>
      show changesInv (c.pushOp p v)
      unfold Changes.pushOp
      repeat' split
      all_goals exact changesInv_withPush h (assocSet_ne_nil _ _ _)
  | pull p v =>
      show changesInv (c.pullOp p v)
      unfold Changes.pullOp Changes.pullMerge Changes.pullAllOp
      repeat' split
      all_goals
        first
          | exact changesInv_withPullPullAll h _ (assocSet_ne_nil _ _ _)
          | exact changesInv_withPullNone h (assocSet_ne_nil _ _ _)
          | exact changesInv_withPullNonempty h (assocSet_ne_nil _ _ _)

theorem changesInv_empty : changesInv ({} : Changes) :=
  ⟨fun _ h => Option.noConfusion h, fun _ h => Option.noConfusion h,
   fun _ h => Option.noConfusion h, fun _ h => Option.noConfusion h,
   fun _ h => Option.noConfusion h, fun _ h => Option.noConfusion h⟩

theorem changesInv_foldl (ops : List Op) : ∀ (c : Changes), changesInv c →
    changesInv (ops.foldl applyOp c) := by
  induction ops with
  | nil => intro c h; exact h
  | cons op rest ih =>
      intro c h
      exact ih _ (changesInv_applyOp op h)

/-- C6 (amended) — for every diff invocation, every operator key other
than `pull` maps to a non-empty inner mapping when present, and a
present-but-empty `pull` mapping can only occur alongside a present,
non-empty `pullAll`. -/
theorem changes_nonempty_inv (original modified : Node) (opts : Options) :
    changesInv (diff original modified opts) :=
  changesInv_foldl _ _ changesInv_empty

theorem changes_nonempty_inv_witness :
    (diff (.obj [("a", .arr [.num 1, .num 2, .num 3, .num 4])])
        (.obj [("a", .arr [.num 4])]) {}).pullAll ≠ some [] :=
  fun h => (changes_nonempty_inv (.obj [("a", .arr [.num 1, .num 2, .num 3, .num 4])])
    (.obj [("a", .arr [.num 4])]) {}).2.2.2.2.1 [] h rfl

/-! ### Majority rewrite (claim C9) -/

/-- C9 — in positional reconciliation (neither the shrink nor the grow
strategy applies), when the indices scoring exactly `0` number more
than half of `modified`'s length, the engine emits exactly one full
`set(path, modified)` and nothing else for the array. -/
theorem majority_rewrite_full_set (atomic : Bool) (xs ys : List Node) (p : String)
    (h1 : ¬ xs.length > ys.length)
    (h2 : xs.length < ys.length → canPush xs ys = false)
    (h3 : 2 * (setsIdx xs ys).length > ys.length) :
    onArray atomic xs ys p = [Op.set p (.arr ys)] ∧
    buildChanges (onArray atomic xs ys p) = { set := some [(p, Node.arr ys)] } := by
  have hmain : onArray atomic xs ys p = [Op.set p (.arr ys)] := by
    rw [onArray.eq_def]
    rw [if_neg h1]
    have hcond : ¬(xs.length < ys.length ∧ canPush xs ys = true) := by
      rintro ⟨hlt, hcp⟩
      rw [h2 hlt] at hcp
      cases hcp
    rw [if_neg hcond]
    rw [if_pos h3]
  refine ⟨hmain, ?_⟩
  rw [hmain]
  rfl

theorem majority_rewrite_full_set_witness :
    onArray false [Node.num 1, Node.num 2] [Node.num 3, Node.num 4] "a"
      = [Op.set "a" (Node.arr [Node.num 3, Node.num 4])] ∧
    buildChanges (onArray false [Node.num 1, Node.num 2] [Node.num 3, Node.num 4] "a")
      = { set := some [("a", Node.arr [Node.num 3, Node.num 4])] } := by
  have hs : setsIdx [Node.num 1, Node.num 2] [Node.num 3, Node.num 4] = [0, 1] := by
    norm_num [setsIdx, List.range_succ, nth, almostEqual.eq_def, looseEq, scoreEqZero]
  exact majority_rewrite_full_set false _ _ "a" (by decide)
    (fun h => absurd h (by decide)) (by rw [hs]; decide)

/-! ### Similarity-score range and the NaN edge case (claims C3, C5) -/

theorem almostEqual_obj_none_iff (fs gs : List (String × Node)) :
    almostEqual (.obj fs) (.obj gs) = none ↔
      (keysOf fs).filter (fun k => (keysOf gs).contains k) = [] := by
  simp only [almostEqual.eq_def]
  rcases hfil : (keysOf fs).filter (fun k => (keysOf gs).contains k) with _ | ⟨x, rest⟩
  · simp
  · simp

theorem almostEqual_default (a b : Node)
    (h : ¬(∃ fs gs, a = .obj fs ∧ b = .obj gs)) :
    almostEqual a b = if looseEq a b then some 1 else some 0 := by
  cases a <;> cases b
  case obj.obj fs gs => exact absurd ⟨fs, gs, rfl, rfl⟩ h
  all_goals rw [almostEqual.eq_def]

theorem countChanged_le (fs gs : List (String × Node)) :
    countChanged fs gs ≤
      ((keysOf fs).filter (fun k => (keysOf gs).contains k)).length := by
  induction fs with
  | nil => simp [countChanged]
  | cons kv rest ih =>
      obtain ⟨k, v⟩ := kv
      rw [countChanged]
      have hkeys : keysOf ((k, v) :: rest) = k :: keysOf rest := rfl
      rw [hkeys, List.filter_cons]
      by_cases hk : (keysOf gs).contains k = true
      · rw [if_pos hk]
        have hif : (if (keysOf gs).contains k = true ∧
            scoreLtOne (almostEqual v (lookupN gs k)) = true then 1 else 0) ≤ 1 := by
          split <;> omega
        simp only [List.length_cons]
        omega
      · rw [if_neg hk]
        have hcond : ¬((keysOf gs).contains k = true ∧
            scoreLtOne (almostEqual v (lookupN gs k)) = true) := fun hc => hk hc.1
        rw [if_neg hcond]
        omega

theorem keysNodup_nodup {fs : List (String × Node)} (h : keysNodup fs = true) :
    (keysOf fs).Nodup := by
  induction fs with
  | nil => simp [keysOf]
  | cons kv rest ih =>
      obtain ⟨k, v⟩ := kv
      rw [keysNodup, Bool.and_eq_true, List.all_eq_true] at h
      simp only [keysOf, List.map_cons]
      refine List.Nodup.cons ?_ (ih h.2)
      intro hmem
      simp [keysOf] at hmem
      obtain ⟨v2, hv2⟩ := hmem
      have := h.1 _ hv2
      simp at this

theorem common_length_le_right {fs gs : List (String × Node)}
    (hnd : keysNodup fs = true) :
    ((keysOf fs).filter (fun k => (keysOf gs).contains k)).length
      ≤ (keysOf gs).length := by
  set cks := (keysOf fs).filter (fun k => (keysOf gs).contains k) with hcks
  have hnodup : cks.Nodup := (keysNodup_nodup hnd).filter _
  have hsub : ∀ x ∈ cks, x ∈ keysOf gs := by
    intro x hx
    rw [hcks] at hx
    have := List.of_mem_filter hx
    simpa using this
  calc cks.length = cks.toFinset.card := (List.toFinset_card_of_nodup hnodup).symm
    _ ≤ (keysOf gs).toFinset.card := by
        apply Finset.card_le_card
        intro x hx
        rw [List.mem_toFinset] at hx
        rw [List.mem_toFinset]
        exact hsub x hx
    _ ≤ (keysOf gs).length := (keysOf gs).toFinset_card_le

/-- C3 (amended) — `almostEqual` yields NaN exactly when both inputs
are records sharing no key; every real score it yields lies in
`[-1, 1]` (for a left input whose records have duplicate-free keys, as
JS objects do). -/
theorem almostEqual_score_bounds (a b : Node)
    (h : ∀ fs, a = .obj fs → keysNodup fs = true) :
    (∀ q, almostEqual a b = some q → -1 ≤ q ∧ q ≤ 1) ∧
    (almostEqual a b = none ↔ ∃ fs gs, a = .obj fs ∧ b = .obj gs ∧
      (keysOf fs).filter (fun k => (keysOf gs).contains k) = []) := by
  by_cases hobj : ∃ fs gs, a = .obj fs ∧ b = .obj gs
  · obtain ⟨fs, gs, rfl, rfl⟩ := hobj
    constructor
    · intro q hq
      rw [almostEqual.eq_def] at hq
      simp only [] at hq
      by_cases hempty :
          ((keysOf fs).filter (fun k => (keysOf gs).contains k)).isEmpty = true
      · rw [if_pos hempty] at hq
        cases hq
      · simp only [hempty, if_false] at hq
        injection hq with hq
        set ck := ((keysOf fs).filter (fun k => (keysOf gs).contains k)).length with hck
        have hck1 : 1 ≤ ck := by
          rw [hck]
          rcases hnil : (keysOf fs).filter (fun k => (keysOf gs).contains k) with _ | ⟨x, rest⟩
          · rw [hnil] at hempty; simp at hempty
          · simp
        have hckn1 : ck ≤ (keysOf fs).length := by
          rw [hck]; exact List.length_filter_le _ _
        have hckn2 : ck ≤ (keysOf gs).length :=
          common_length_le_right (h fs rfl)
        have hrc : countChanged fs gs ≤ ck := countChanged_le fs gs
        set n1 := (keysOf fs).length
        set n2 := (keysOf gs).length
        set rc := countChanged fs gs
        have htk : (1 : ℚ) ≤ (n1 : ℚ) + (n2 : ℚ) - (ck : ℚ) := by
          have : (ck : ℚ) ≤ (n1 : ℚ) := by exact_mod_cast hckn1
          have h2 : (1 : ℚ) ≤ (ck : ℚ) := by exact_mod_cast hck1
          have h3 : (ck : ℚ) ≤ (n2 : ℚ) := by exact_mod_cast hckn2
          linarith
        have htkpos : (0 : ℚ) < (n1 : ℚ) + (n2 : ℚ) - (ck : ℚ) := by linarith
        have hckpos : (0 : ℚ) < (ck : ℚ) := by
          have : (1 : ℚ) ≤ (ck : ℚ) := by exact_mod_cast hck1
          linarith
        have hkd0 : (0 : ℚ) ≤ ((n1 : ℚ) + (n2 : ℚ) - (ck : ℚ)) - (ck : ℚ) := by
          have h2 : (ck : ℚ) ≤ (n1 : ℚ) := by exact_mod_cast hckn1
          have h3 : (ck : ℚ) ≤ (n2 : ℚ) := by exact_mod_cast hckn2
          linarith
        have hfrac1 : ((n1 : ℚ) + (n2 : ℚ) - (ck : ℚ) - (ck : ℚ)) /
            ((n1 : ℚ) + (n2 : ℚ) - (ck : ℚ)) ≤ 1 := by
          rw [div_le_one htkpos]; linarith
        have hfrac1nn : 0 ≤ ((n1 : ℚ) + (n2 : ℚ) - (ck : ℚ) - (ck : ℚ)) /
            ((n1 : ℚ) + (n2 : ℚ) - (ck : ℚ)) := div_nonneg hkd0 (le_of_lt htkpos)
        have hfrac2 : (rc : ℚ) / (ck : ℚ) ≤ 1 := by
          rw [div_le_one hckpos]; exact_mod_cast hrc
        have hfrac2nn : 0 ≤ (rc : ℚ) / (ck : ℚ) :=
          div_nonneg (by positivity) (le_of_lt hckpos)
        rw [← hq]
        constructor <;> linarith
    · rw [almostEqual_obj_none_iff]
      constructor
      · intro hfil; exact ⟨fs, gs, rfl, rfl, hfil⟩
      · rintro ⟨fs2, gs2, he1, he2, hfil⟩
        injection he1 with e1
        injection he2 with e2
        subst e1; subst e2
        exact hfil
  · constructor
    · intro q hq
      rw [almostEqual_default a b hobj] at hq
      split at hq <;> (injection hq with e; subst e) <;> norm_num
    · rw [almostEqual_default a b hobj]
      constructor
      · intro hc; split at hc <;> cases hc
      · rintro ⟨fs, gs, rfl, rfl, _⟩
        exact absurd ⟨fs, gs, rfl, rfl⟩ hobj

theorem almostEqual_score_bounds_witness :
    -1 ≤ (1 : ℚ) ∧ (1 : ℚ) ≤ 1 := by
  have heval : almostEqual (.obj [("x", .num 1)]) (.obj [("x", .num 1)]) = some 1 := by
    norm_num [almostEqual.eq_def, countChanged, keysOf, lookupN, scoreLtOne, looseEq]
  exact (almostEqual_score_bounds (.obj [("x", .num 1)]) (.obj [("x", .num 1)])
    (by intro fs hfs; injection hfs with e; subst e; decide)).1 1 heval

/-- C5 (amended) — the `|common| = 0` case is unguarded: whenever the
two records share no key (both empty or not), `almostEqual` returns the
NaN-like undefined result (`none`), never `0` or `1`. -/
theorem almostEqual_disjoint_keys_nan (fs gs : List (String × Node))
    (h : (keysOf fs).filter (fun k => (keysOf gs).contains k) = []) :
    almostEqual (.obj fs) (.obj gs) = none :=
  (almostEqual_obj_none_iff fs gs).mpr h

theorem almostEqual_disjoint_keys_nan_witness :
    almostEqual (.obj [("a", Node.num 1)]) (.obj [("b", Node.num 2)]) = none :=
  almostEqual_disjoint_keys_nan _ _ (by decide)

/-! ### Push batching (claim C8, amended) -/

theorem onArray_grow (atomic : Bool) (xs ys : List Node) (p : String)
    (hlt : xs.length < ys.length) (hcp : canPush xs ys = true) :
    onArray atomic xs ys p = (ys.drop xs.length).map (Op.push p) := by
  rw [onArray.eq_def]
  rw [if_neg (by omega)]
  rw [if_pos ⟨hlt, hcp⟩]

theorem foldl_push_each (p : String) (acc ws : List Node) :
    List.foldl applyOp { push := some [(p, PushVal.each acc)] } (ws.map (Op.push p)) =
      ({ push := some [(p, PushVal.each (acc ++ ws))] } : Changes) := by
  induction ws generalizing acc with
  | nil => simp
  | cons w ws ih =>
      rw [List.map_cons, List.foldl_cons]
      have hstep : applyOp { push := some [(p, PushVal.each acc)] } (.push p w)
          = { push := some [(p, PushVal.each (acc ++ [w]))] } := by
        simp [applyOp, Changes.pushOp, assocGet, assocSet, PushVal.truthy]
      rw [hstep, ih]
      simp

theorem buildChanges_pushes (p : String) (v : Node) (vs : List Node)
    (hv : truthy v = true) :
    buildChanges ((v :: vs).map (Op.push p)) =
      { push := some [(p, match vs with
          | [] => PushVal.single v
          | _ :: _ => PushVal.each (v :: vs))] } := by
  cases vs with
  | nil => simp [buildChanges, applyOp, Changes.pushOp, assocGet, assocSet]
  | cons w ws =>
      have h1 : applyOp {} (Op.push p v) = { push := some [(p, PushVal.single v)] } := by
        simp [applyOp, Changes.pushOp, assocGet, assocSet]
      have h2 : applyOp { push := some [(p, PushVal.single v)] } (Op.push p w)
          = { push := some [(p, PushVal.each [v, w])] } := by
        simp [applyOp, Changes.pushOp, assocGet, assocSet, PushVal.truthy, hv]
      rw [buildChanges, List.map_cons, List.foldl_cons, h1, List.map_cons,
        List.foldl_cons, h2, foldl_push_each]
      simp

/-- C8 (amended) — when `modified` strictly extends a fully-similar
shared prefix of `original`, the engine emits one push per trailing
element in order, and — provided the first trailing element is truthy —
the builder batches them into a single ordered `$each` list (a single
element stays a plain push); no set, pull or positional entries are
produced for the path. -/
theorem push_batching_of_truthy (atomic : Bool) (xs ys : List Node) (p : String)
    (v : Node) (vs : List Node)
    (hlen : xs.length < ys.length)
    (hsim : ∀ q ∈ xs.zip ys, almostEqual q.1 q.2 = some 1)
    (hdrop : ys.drop xs.length = v :: vs)
    (hv : truthy v = true) :
    onArray atomic xs ys p = (v :: vs).map (Op.push p) ∧
    buildChanges (onArray atomic xs ys p) =
      { push := some [(p, match vs with
          | [] => PushVal.single v
          | _ :: _ => PushVal.each (v :: vs))] } := by
  have hcp : canPush xs ys = true := by
    rw [canPush, List.all_eq_true]
    intro q hq
    simp [hsim q hq, scoreLtOne]
  have hgrow := onArray_grow atomic xs ys p hlen hcp
  rw [hdrop] at hgrow
  refine ⟨hgrow, ?_⟩
  rw [hgrow, buildChanges_pushes p v vs hv]
  cases vs <;> rfl

theorem push_batching_of_truthy_witness :
    onArray false [Node.str "a"] [Node.str "a", Node.str "b", Node.str "c"] "tags"
      = [Op.push "tags" (Node.str "b"), Op.push "tags" (Node.str "c")] ∧
    buildChanges (onArray false [Node.str "a"]
        [Node.str "a", Node.str "b", Node.str "c"] "tags")
      = { push := some [("tags", PushVal.each [Node.str "b", Node.str "c"])] } := by
  have h := push_batching_of_truthy false [Node.str "a"]
    [Node.str "a", Node.str "b", Node.str "c"] "tags" (Node.str "b") [Node.str "c"]
    (by decide)
    (by
      intro q hq
      simp at hq
      subst hq
      norm_num [almostEqual.eq_def, looseEq])
    (by decide) (by decide)
  exact h

/-! ### Single numeric-leaf diffs (claim C7, amended) -/

theorem onFields_concat (atomic : Bool) (F pre suf : List (String × Node)) (p : String) :
    onFields atomic F (pre ++ suf) p = onFields atomic F pre p ++ onFields atomic F suf p := by
  induction pre with
  | nil => rw [onFields]; simp
  | cons kv rest ih =>
      obtain ⟨k, v⟩ := kv
      rw [List.cons_append, onFields, onFields, ih, List.append_assoc]

theorem onFields_self_sub (atomic : Bool) (F sub : List (String × Node)) (p : String)
    (h : ∀ kv, kv ∈ sub → lookupN F kv.1 = kv.2 ∧ clean kv.2 = true) :
    onFields atomic F sub p = [] := by
  induction sub with
  | nil => rw [onFields]
  | cons kv rest ih =>
      obtain ⟨k, u⟩ := kv
      have hu := h (k, u) (List.mem_cons_self _ _)
      rw [onFields]
      rw [ih (fun kv hkv => h kv (List.mem_cons_of_mem _ hkv))]
      rw [List.append_nil]
      rw [hu.1]
      by_cases harr : ∃ zs, u = Node.arr zs
      · obtain ⟨zs, hzs⟩ := harr
        subst hzs
        have hcl : cleanList zs = true := by simpa [clean] using hu.2
        simp [Node.isArr, Node.arrList, onArray_self hcl]
      · have hna : u.isArr = false := by
          cases u <;> simp [Node.isArr] <;> exact harr ⟨_, rfl⟩
        simp [hna]
        exact onObject_self_aux (sizeOf u) u (le_refl _) hu.2 atomic _
      
theorem sweepUnset_eq_nil {fs gs : List (String × Node)} (p : String)
    (h : ∀ kv, kv ∈ fs → lookupN gs kv.1 ≠ .undef ∧ lookupN gs kv.1 ≠ .null) :
    sweepUnset fs gs p = [] := by
  rw [sweepUnset, List.filterMap_eq_nil]
  intro kv hkv
  simp [(h kv hkv).1, (h kv hkv).2]

theorem numLeafDiff_not_arr {v w : Node} {segs : List String} {a b : ℚ}
    (h : NumLeafDiff v w segs a b) :
    v.isArr = false ∧ w.isArr = false ∧ v ≠ .undef ∧ v ≠ .null ∧
      w ≠ .undef ∧ w ≠ .null := by
  cases h <;> simp [Node.isArr]

theorem clean_append_mid {l r : List (String × Node)} {k : String} {v : Node}
    (hc : clean (.obj (l ++ (k, v) :: r)) = true) :
    keysNodup (l ++ (k, v) :: r) = true ∧ cleanFields (l ++ (k, v) :: r) = true ∧
      clean v = true := by
  simp only [clean, Bool.and_eq_true] at hc
  refine ⟨hc.1, hc.2, ?_⟩
  exact (cleanFields_mem (k := k) hc.2 (by simp)).1

/-- The engine's behaviour on a pair differing at exactly one numeric
leaf reached through record keys: one `inc` (atomic) or one `set`. -/
theorem onObject_numLeaf {orig mod : Node} {segs : List String} {a b : ℚ}
    (h : NumLeafDiff orig mod segs a b) :
    clean orig = true → clean mod = true →
    ∀ (atomic : Bool) (p : String),
    onObject atomic orig mod p =
      (if atomic then [Op.inc (resolveList p segs) (b - a)]
       else [Op.set (resolveList p segs) (.num b)]) := by
  induction h with
  | leaf hne =>
      intro _ _ atomic p
      rw [onObject.eq_def]
      rename_i a' b'
      simp [resolveList, hne]
  | step hsub ih =>
      intro hco hcm atomic p
      rename_i l r k v w segs' a' b'
      obtain ⟨hndF, hcfF, hcv⟩ := clean_append_mid hco
      obtain ⟨hndG, hcfG, hcw⟩ := clean_append_mid hcm
      have hshape := numLeafDiff_not_arr hsub
      have hlkF : lookupN (l ++ (k, v) :: r) k = v :=
        lookupN_of_mem hndF (by simp)
      have hlkG : lookupN (l ++ (k, w) :: r) k = w :=
        lookupN_of_mem hndG (by simp)
      have hself : ∀ kv, kv ∈ l ∨ kv ∈ r →
          lookupN (l ++ (k, v) :: r) kv.1 = kv.2 ∧ clean kv.2 = true := by
        intro kv hkv
        have hmemF : kv ∈ l ++ (k, v) :: r := by
          rcases hkv with h | h
          · exact List.mem_append_left _ h
          · exact List.mem_append_right _ (List.mem_cons_of_mem _ h)
        obtain ⟨k2, v2⟩ := kv
        exact ⟨lookupN_of_mem hndF hmemF, (cleanFields_mem hcfF hmemF).1⟩
      have hselfG : ∀ kv, kv ∈ l ∨ kv ∈ r →
          lookupN (l ++ (k, w) :: r) kv.1 = kv.2 ∧ clean kv.2 = true := by
        intro kv hkv
        have hmemG : kv ∈ l ++ (k, w) :: r := by
          rcases hkv with h | h
          · exact List.mem_append_left _ h
          · exact List.mem_append_right _ (List.mem_cons_of_mem _ h)
        obtain ⟨k2, v2⟩ := kv
        exact ⟨lookupN_of_mem hndG hmemG, (cleanFields_mem hcfG hmemG).1⟩
      have hsweep : sweepUnset (l ++ (k, v) :: r) (l ++ (k, w) :: r) p = [] := by
        apply sweepUnset_eq_nil
        intro kv hkv
        rcases List.mem_append.mp hkv with hmem | hmem
        · have := hselfG kv (Or.inl hmem)
          have hcl := this.2
          rw [this.1]
          exact ⟨clean_ne_undef hcl, (cleanFields_mem hcfG (List.mem_append_left _ hmem)).2⟩
        · rcases List.mem_cons.mp hmem with hk | hmem2
          · subst hk
            rw [hlkG]
            exact ⟨hshape.2.2.2.2.1, hshape.2.2.2.2.2⟩
          · have := hselfG kv (Or.inr hmem2)
            have hcl := this.2
            rw [this.1]
            exact ⟨clean_ne_undef hcl,
              (cleanFields_mem hcfG (List.mem_append_right _ (List.mem_cons_of_mem _ hmem2))).2⟩
      have hl : onFields atomic (l ++ (k, v) :: r) l p = [] :=
        onFields_self_sub _ _ _ _ (fun kv hkv => hself kv (Or.inl hkv))
      have hr : onFields atomic (l ++ (k, v) :: r) r p = [] :=
        onFields_self_sub _ _ _ _ (fun kv hkv => hself kv (Or.inr hkv))
      have hmid : onFields atomic (l ++ (k, v) :: r) ((k, w) :: r) p =
          (if atomic then [Op.inc (resolveList (resolve p k) segs') (b' - a')]
           else [Op.set (resolveList (resolve p k) segs') (.num b')]) := by
        rw [onFields]
        rw [hr, List.append_nil]
        rw [hlkF]
        have hna : (w.isArr && v.isArr) = false := by
          rw [hshape.1, Bool.and_false]
        rw [hna]
        simp only [Bool.false_eq_true, if_false]
        exact ih (cleanFields_mem (k := k) hcfF (by simp)).1
          (cleanFields_mem (k := k) hcfG (by simp)).1 atomic _
      rw [onObject.eq_def]
      have hne1 : (Node.obj (l ++ (k, v) :: r) = Node.undef ∨
          Node.obj (l ++ (k, v) :: r) = Node.null) = False := by simp
      simp only [hne1, if_false]
      rw [onFields_concat, hl, hsweep, hmid]
      cases atomic <;> simp [resolveList]



/-- C7 (amended) — for clean, array-free records differing only at one
changed numeric scalar leaf reached through record keys, `diff` yields
exactly one `inc` entry carrying `modified − original` when
`atomicNumbers = true`, and exactly one `set` entry carrying the new
value when `atomicNumbers = false`.  The array-free hypotheses confine
the execution to comparisons the embedding models exactly: with an
Array present anywhere — even as an unchanged sibling off the changed
path — the engine reaches `almostEqual`, whose `==` fallback on
independent (unaliased) composite operands is reference inequality, so
a structurally equal Array sibling scores 0 and draws an extra full
`set`; inside the array-free domain `onArray` is never entered and no
such comparison occurs. -/
theorem one_num_leaf_diff_inc_set (orig mod : Node) (segs : List String)
    (a b : ℚ) (h : NumLeafDiff orig mod segs a b)
    (hco : clean orig = true) (hcm : clean mod = true)
    (hao : arrFree orig = true) (ham : arrFree mod = true) :
    diff orig mod ⟨true⟩ = { inc := some [(resolveList "" segs, b - a)] } ∧
    diff orig mod ⟨false⟩ = { set := some [(resolveList "" segs, .num b)] } := by
  have h1 := onObject_numLeaf h hco hcm true ""
  have h2 := onObject_numLeaf h hco hcm false ""
  simp only [if_pos rfl] at h1
  constructor
  · rw [diff, diffOps]
    show buildChanges (onObject true orig mod "") = _
    rw [h1]
    rfl
  · rw [diff, diffOps]
    show buildChanges (onObject false orig mod "") = _
    rw [h2]
    simp only [Bool.false_eq_true, if_false]
    rfl

theorem one_num_leaf_diff_inc_set_witness :
    diff (.obj [("age", .num 30)]) (.obj [("age", .num 31)]) ⟨true⟩
      = { inc := some [("age", 1)] } ∧
    diff (.obj [("age", .num 30)]) (.obj [("age", .num 31)]) ⟨false⟩
      = { set := some [("age", Node.num 31)] } := by
  have h := one_num_leaf_diff_inc_set (.obj [("age", .num 30)])
    (.obj [("age", .num 31)]) ["age"] 30 31
    (NumLeafDiff.step (l := []) (r := []) (NumLeafDiff.leaf (by norm_num)))
    (by decide) (by decide) (by decide) (by decide)
  have hp : resolveList "" ["age"] = "age" := by decide
  rw [hp] at h
  norm_num at h
  exact h

/-! ### No set-and-unset on the same non-null key (claim C4, amended) -/

theorem mem_ite_list {α : Type} {c : Prop} [Decidable c] {a b : List α} {x : α} :
    x ∈ (if c then a else b) ↔ (c ∧ x ∈ a) ∨ (¬c ∧ x ∈ b) := by
  split <;> simp [*]

/-- "`π` strictly extends the path `q` by at least one segment". -/
def pext (q π : String) : Prop := ∃ s, π = q ++ "." ++ s

theorem pext_dot {q π : String} (h : pext q π) : '.' ∈ π.data := by
  obtain ⟨s, rfl⟩ := h
  rw [String.data_append, String.data_append]
  simp [String.data]

theorem pext_trans {q q' π : String} (h1 : pext q q') (h2 : pext q' π) :
    pext q π := by
  obtain ⟨s1, rfl⟩ := h1
  obtain ⟨s2, rfl⟩ := h2
  exact ⟨s1 ++ "." ++ s2, by simp [String.append_assoc]⟩

theorem goodKeysFields_mem {fs : List (String × Node)} {k : String} {v : Node}
    (h : goodKeysFields fs = true) (hm : (k, v) ∈ fs) :
    k ≠ "" ∧ goodKeys v = true := by
  induction fs with
  | nil => simp at hm
  | cons kv rest ih =>
      obtain ⟨k', v'⟩ := kv
      rw [goodKeysFields, Bool.and_eq_true, Bool.and_eq_true] at h
      rcases List.mem_cons.mp hm with he | he
      · injection he with e1 e2
        subst e1; subst e2
        exact ⟨by simpa using h.1.1, h.1.2⟩
      · exact ih h.2 he

theorem goodKeys_lookupN {fs : List (String × Node)} (k : String)
    (h : goodKeysFields fs = true) : goodKeys (lookupN fs k) = true := by
  induction fs with
  | nil => simp [lookupN, goodKeys]
  | cons kv rest ih =>
      obtain ⟨k', v'⟩ := kv
      rw [goodKeysFields, Bool.and_eq_true, Bool.and_eq_true] at h
      rw [lookupN]
      split
      · exact h.1.2
      · exact ih h.2

theorem goodKeysList_mem {xs : List Node} {x : Node}
    (h : goodKeysList xs = true) (hm : x ∈ xs) : goodKeys x = true := by
  induction xs with
  | nil => simp at hm
  | cons y ys ih =>
      rw [goodKeysList, Bool.and_eq_true] at h
      rcases List.mem_cons.mp hm with he | he
      · subst he; exact h.1
      · exact ih h.2 he

theorem goodKeys_nth {xs : List Node} (i : Nat)
    (h : goodKeysList xs = true) : goodKeys (nth xs i) = true := by
  by_cases hi : i < xs.length
  · exact goodKeysList_mem h (nth_mem hi)
  · rw [nth, List.getD_eq_getElem?_getD, List.getElem?_eq_none (by omega)]
    simp [goodKeys]

theorem goodKeys_arrList {v : Node} (h : goodKeys v = true) :
    goodKeysList v.arrList = true := by
  cases v <;> simp [Node.arrList, goodKeysList] <;> simpa [goodKeys] using h

theorem onObject_unset_cases {atomic : Bool} {o m : Node} {q π : String}
    (hmem : Op.unset π ∈ onObject atomic o m q) :
    (∃ xs ys, o = .arr xs ∧ m = .arr ys ∧ Op.unset π ∈ onArray atomic xs ys q) ∨
    (∃ F G, o = .obj F ∧ m = .obj G ∧
      Op.unset π ∈ onFields atomic F G q ++ sweepUnset F G q) := by
  cases o <;> cases m <;> rw [onObject.eq_def] at hmem <;> split at hmem <;>
    first
      | (left; exact ⟨_, _, rfl, rfl, hmem⟩)
      | (right; exact ⟨_, _, rfl, rfl, hmem⟩)
      | simp [mem_ite_list] at hmem

theorem onArray_unset_cases {atomic : Bool} {xs ys : List Node} {q π : String}
    (hmem : Op.unset π ∈ onArray atomic xs ys q) :
    Op.unset π ∈ onPartials atomic xs ys q (partialsIdx xs ys) := by
  rw [onArray.eq_def] at hmem
  split at hmem
  · split at hmem
    · split at hmem
      · simp at hmem
      · simp only [List.mem_map] at hmem
        obtain ⟨x, _, hx⟩ := hmem
        exact Op.noConfusion hx
    · simp at hmem
  · split at hmem
    · simp only [List.mem_map] at hmem
      obtain ⟨x, _, hx⟩ := hmem
      exact Op.noConfusion hx
    · split at hmem
      · simp at hmem
      · rcases List.mem_append.mp hmem with h | h
        · simp only [List.mem_map] at h
          obtain ⟨x, _, hx⟩ := h
          exact Op.noConfusion hx
        · exact h



theorem appendDot_ne_empty (q s : String) : q ++ "." ++ s ≠ "" := by
  intro h
  have hd : '.' ∈ (q ++ "." ++ s).data := by
    rw [String.data_append, String.data_append]
    simp [String.data]
  rw [h] at hd
  simp [String.data] at hd

theorem unsetPath_aux : ∀ n : Nat,
    (∀ (atomic : Bool) (o m : Node) (q π : String),
      sizeOf o + sizeOf m ≤ n → goodKeys o = true → goodKeys m = true →
      q ≠ "" → Op.unset π ∈ onObject atomic o m q → pext q π) ∧
    (∀ (atomic : Bool) (xs ys : List Node) (q : String) (is : List Nat) (π : String),
      sizeOf xs + sizeOf ys ≤ n → goodKeysList xs = true → goodKeysList ys = true →
      q ≠ "" → Op.unset π ∈ onPartials atomic xs ys q is → pext q π) ∧
    (∀ (atomic : Bool) (xs ys : List Node) (q π : String),
      sizeOf xs + sizeOf ys ≤ n → goodKeysList xs = true → goodKeysList ys = true →
      q ≠ "" → Op.unset π ∈ onArray atomic xs ys q → pext q π) ∧
    (∀ (atomic : Bool) (F fs : List (String × Node)) (q π : String),
      sizeOf F + sizeOf fs ≤ n → goodKeysFields F = true →
      (∀ kv ∈ fs, kv.1 ≠ ("" : String) ∧ goodKeys kv.2 = true) →
      Op.unset π ∈ onFields atomic F fs q →
      (q ≠ "" → pext q π) ∧ (q = "" → '.' ∈ π.data)) := by
  intro n
  induction n using Nat.strong_induction_on with
  | _ n ih =>
    have Pa : ∀ (atomic : Bool) (o m : Node) (q π : String),
        sizeOf o + sizeOf m ≤ n → goodKeys o = true → goodKeys m = true →
        q ≠ "" → Op.unset π ∈ onObject atomic o m q → pext q π := by
      intro atomic o m q π hsz hgo hgm hq hmem
      rcases onObject_unset_cases hmem with ⟨xs, ys, rfl, rfl, h⟩ | ⟨F, G, rfl, rfl, h⟩
      · have hszs : sizeOf xs + sizeOf ys + 2 ≤ n := by simp at hsz; omega
        have hlt : n - 1 < n := by omega
        exact (ih (n-1) hlt).2.2.1 atomic xs ys q π (by omega)
          (by simpa [goodKeys] using hgo) (by simpa [goodKeys] using hgm) hq h
      · have hszs : sizeOf F + sizeOf G + 2 ≤ n := by simp at hsz; omega
        have hlt : n - 1 < n := by omega
        have hgF : goodKeysFields F = true := by simpa [goodKeys] using hgo
        have hgG : goodKeysFields G = true := by simpa [goodKeys] using hgm
        rcases List.mem_append.mp h with h2 | h2
        · exact ((ih (n-1) hlt).2.2.2 atomic F G q π (by omega) hgF
            (fun kv hkv => goodKeysFields_mem hgG hkv) h2).1 hq
        · rw [sweepUnset, List.mem_filterMap] at h2
          obtain ⟨kv, hkv, hop⟩ := h2
          split at hop
          · injection hop with hop2
            injection hop2 with hop3
            have hkne := (goodKeysFields_mem hgF hkv).1
            rw [resolve_nonroot kv.1 hq, if_neg hkne] at hop3
            exact ⟨kv.1, hop3.symm⟩
          · cases hop
    have Pd : ∀ (atomic : Bool) (xs ys : List Node) (q : String) (is : List Nat) (π : String),
        sizeOf xs + sizeOf ys ≤ n → goodKeysList xs = true → goodKeysList ys = true →
        q ≠ "" → Op.unset π ∈ onPartials atomic xs ys q is → pext q π := by
      intro atomic xs ys q is π hsz hgx hgy hq hmem
      induction is with
      | nil => rw [onPartials] at hmem; simp at hmem
      | cons i rest ihis =>
          rw [onPartials] at hmem
          rcases List.mem_append.mp hmem with h2 | h2
          · by_cases hri : Nat.repr i = ""
            · rw [resolve_nonroot (Nat.repr i) hq, if_pos hri] at h2
              exact Pa atomic (nth xs i) (nth ys i) q π
                (by have := sizeOf_nth_le xs i; have := sizeOf_nth_le ys i; omega)
                (goodKeys_nth i hgx) (goodKeys_nth i hgy) hq h2
            · rw [resolve_nonroot (Nat.repr i) hq, if_neg hri] at h2
              have hbne := appendDot_ne_empty q (Nat.repr i)
              have hp := Pa atomic (nth xs i) (nth ys i) (q ++ "." ++ Nat.repr i) π
                (by have := sizeOf_nth_le xs i; have := sizeOf_nth_le ys i; omega)
                (goodKeys_nth i hgx) (goodKeys_nth i hgy) hbne h2
              exact pext_trans ⟨Nat.repr i, rfl⟩ hp
          · exact ihis h2
    have Pc : ∀ (atomic : Bool) (xs ys : List Node) (q π : String),
        sizeOf xs + sizeOf ys ≤ n → goodKeysList xs = true → goodKeysList ys = true →
        q ≠ "" → Op.unset π ∈ onArray atomic xs ys q → pext q π := by
      intro atomic xs ys q π hsz hgx hgy hq hmem
      exact Pd atomic xs ys q _ π hsz hgx hgy hq (onArray_unset_cases hmem)
    refine ⟨Pa, Pd, Pc, ?_⟩
    intro atomic F fs q π hsz hgF hgfs hmem
    induction fs with
    | nil => rw [onFields] at hmem; simp at hmem
    | cons kv rest ihfs =>
        obtain ⟨key, value⟩ := kv
        rw [onFields] at hmem
        rcases List.mem_append.mp hmem with h2 | h2
        · have hkey := hgfs (key, value) (List.mem_cons_self _ _)
          have hkne : key ≠ "" := hkey.1
          have hgv : goodKeys value = true := hkey.2
          have hbase : resolve q key ≠ "" ∧ (q ≠ "" → pext q (resolve q key)) ∧
              (q = "" → resolve q key = key) := by
            by_cases hqe : q = ""
            · subst hqe
              rw [resolve_root]
              exact ⟨hkne, fun h => absurd rfl h, fun _ => rfl⟩
            · rw [resolve_nonroot key hqe, if_neg hkne]
              exact ⟨appendDot_ne_empty q key, fun _ => ⟨key, rfl⟩,
                fun h => absurd h hqe⟩
          have hszv : sizeOf value + 2 ≤ sizeOf ((key, value) :: rest) := by
            simp; omega
          have hlt : n - 1 < n := by
            have : (2 : Nat) ≤ sizeOf ((key, value) :: rest) := by simp; omega
            omega
          have hpbase : pext (resolve q key) π := by
            split at h2
            · have h1 := sizeOf_arrList_le (lookupN F key)
              have h2' := sizeOf_lookupN_le F key
              have h3 := sizeOf_arrList_le value
              exact (ih (n-1) hlt).2.2.1 atomic _ _ _ π (by omega)
                (goodKeys_arrList (goodKeys_lookupN key hgF))
                (goodKeys_arrList hgv) hbase.1 h2
            · have h2' := sizeOf_lookupN_le F key
              exact (ih (n-1) hlt).1 atomic _ _ _ π (by omega)
                (goodKeys_lookupN key hgF) hgv hbase.1 h2
          constructor
          · intro hq
            exact pext_trans (hbase.2.1 hq) hpbase
          · intro hq
            rw [hbase.2.2 hq] at hpbase
            exact pext_dot hpbase
        · exact ihfs (by simp at hsz ⊢; omega)
            (fun kv2 hkv2 => hgfs kv2 (List.mem_cons_of_mem _ hkv2)) h2



theorem onObject_obj_eq (atomic : Bool) (fs gs : List (String × Node)) (p : String) :
    onObject atomic (.obj fs) (.obj gs) p =
      onFields atomic fs gs p ++ sweepUnset fs gs p := by
  rw [onObject.eq_def]
  simp

theorem unset_notin_diffOps (opts : Options) (fs gs : List (String × Node))
    (k : String) (hgf : goodKeys (.obj fs) = true) (hgg : goodKeys (.obj gs) = true)
    (hk : k ≠ "") (hdf : dotFree k)
    (hu : lookupN gs k ≠ .undef) (hn : lookupN gs k ≠ .null) :
    Op.unset k ∉ diffOps opts (.obj fs) (.obj gs) := by
  intro hmem
  rw [diffOps, onObject_obj_eq] at hmem
  have hgF : goodKeysFields fs = true := by simpa [goodKeys] using hgf
  have hgG : goodKeysFields gs = true := by simpa [goodKeys] using hgg
  rcases List.mem_append.mp hmem with h2 | h2
  · have hd := ((unsetPath_aux (sizeOf fs + sizeOf gs)).2.2.2
      opts.atomicNumbers fs gs "" k (le_refl _) hgF
      (fun kv hkv => goodKeysFields_mem hgG hkv) h2).2 rfl
    exact hdf hd
  · rw [sweepUnset, List.mem_filterMap] at h2
    obtain ⟨kv, hkv, hop⟩ := h2
    split at hop
    · rename_i hcond
      injection hop with hop2
      injection hop2 with hop3
      rw [resolve_root] at hop3
      rw [hop3] at hcond
      rcases hcond with hc | hc
      · exact hu hc
      · exact hn hc
    · cases hop

theorem any_key_assocSet_false {α : Type} {m : List (String × α)} {p k : String}
    {v : α} (hne : p ≠ k) (h : m.any (fun kv => decide (kv.1 = k)) = false) :
    (assocSet m p v).any (fun kv => decide (kv.1 = k)) = false := by
  rw [assocSet]
  split
  · rw [List.any_map]
    rw [List.any_eq_false] at h ⊢
    intro kv hkv
    have h2 := h kv hkv
    by_cases hkp : kv.1 = p
    · simp [Function.comp, hkp, hne]
    · simp [Function.comp, hkp]
      simpa using h2
  · rw [List.any_append]
    simp only [h, Bool.false_or, List.any_cons, List.any_nil]
    simp [hne]

theorem hasUnsetAt_applyOp {c : Changes} {op : Op} {k : String}
    (hop : op ≠ Op.unset k) (h : hasUnsetAt c k = false) :
    hasUnsetAt (applyOp c op) k = false := by
  cases op with
  | unset p =>
      have hne : p ≠ k := fun he => hop (by rw [he])
      rw [hasUnsetAt] at h ⊢
      show ((assocSet (c.unset.getD []) p 1 : List (String × Nat))).any
        (fun kv => decide (kv.1 = k)) = false
      exact any_key_assocSet_false hne h
  | set p v => exact h
  | inc p v => exact h
  | pullAll p vs => exact h
  | push p v =>
      have : (applyOp c (.push p v)).unset = c.unset := by
        show (c.pushOp p v).unset = c.unset
        unfold Changes.pushOp
        (repeat' split) <;> rfl
      rw [hasUnsetAt, this]
      exact h
  | pull p v =>
      have : (applyOp c (.pull p v)).unset = c.unset := by
        show (c.pullOp p v).unset = c.unset
        unfold Changes.pullOp Changes.pullMerge Changes.pullAllOp
        (repeat' split) <;> rfl
      rw [hasUnsetAt, this]
      exact h

theorem hasUnsetAt_foldl {ops : List Op} {k : String} (hop : Op.unset k ∉ ops) :
    ∀ c, hasUnsetAt c k = false → hasUnsetAt (ops.foldl applyOp c) k = false := by
  induction ops with
  | nil => intro c h; exact h
  | cons op rest ih =>
      intro c h
      rw [List.foldl_cons]
      exact ih (fun hm => hop (List.mem_cons_of_mem _ hm)) _
        (hasUnsetAt_applyOp (fun he => hop (he ▸ List.mem_cons_self _ _)) h)

/-- C4 (amended) — for trees whose record keys are non-empty, and a
dot-free key `k` whose value in `modified` is neither `null` nor
`undefined` (in particular any key present in both records with a
non-null value), the Change Set contains *no* `unset` entry at `k` at
all — so it never contains both a `set` and an `unset` there. -/
theorem no_unset_for_nonnull_key (fs gs : List (String × Node)) (opts : Options)
    (k : String) (hgf : goodKeys (.obj fs) = true) (hgg : goodKeys (.obj gs) = true)
    (hk : k ≠ "") (hdf : dotFree k)
    (hu : lookupN gs k ≠ .undef) (hn : lookupN gs k ≠ .null) :
    hasUnsetAt (diff (.obj fs) (.obj gs) opts) k = false ∧
    ¬(hasSetAt (diff (.obj fs) (.obj gs) opts) k = true ∧
      hasUnsetAt (diff (.obj fs) (.obj gs) opts) k = true) := by
  have h1 : hasUnsetAt (diff (.obj fs) (.obj gs) opts) k = false :=
    hasUnsetAt_foldl (unset_notin_diffOps opts fs gs k hgf hgg hk hdf hu hn) {} rfl
  refine ⟨h1, fun hc => ?_⟩
  rw [h1] at hc
  cases hc.2

theorem no_unset_for_nonnull_key_witness :
    hasUnsetAt (diff (.obj [("k", .num 1)]) (.obj [("k", .num 2)]) {}) "k" = false ∧
    ¬(hasSetAt (diff (.obj [("k", .num 1)]) (.obj [("k", .num 2)]) {}) "k" = true ∧
      hasUnsetAt (diff (.obj [("k", .num 1)]) (.obj [("k", .num 2)]) {}) "k" = true) :=
  no_unset_for_nonnull_key [("k", .num 1)] [("k", .num 2)] {} "k"
    (by decide) (by decide) (by decide) (by decide) (by decide) (by decide)

end Omnom
